import Mathlib

/-!
Verification of the coffee-menu repository's deduplication / normalization
pass (`src/ediya_deduplication.py`), the RAG builder's per-field nutrition
extraction and document filtering (`src/app.py`), and the data-loading
error-handling contract.  Python strings are modelled as `String`
(`List Char`); Python `str.replace(old, '')` (left-to-right scan, no
rescanning of the freshly created junction) and `str.strip()` are embedded
explicitly, machine integers are `Nat` (Python ints are unbounded), and the
JSON-file environment of the loaders is modelled as an explicit
file-content datatype.
-/

namespace Coffee

/-- The disambiguation suffix `" (디카페인)"` appended by the normalizer
(leading space, then `(디카페인)`), as a character list. -/
def tag : List Char := [' ', '(', '디', '카', '페', '인', ')']

/-- The disambiguation suffix as a `String` (the literal that appears in
`ediya_deduplication.py`). -/
def tagStr : String := " (디카페인)"

/-- Fuel-indexed left-to-right scan removing every (non-rescanned)
occurrence of `tag`, exactly like Python's `s.replace(' (디카페인)', '')`:
on a match the scanner jumps past the removed occurrence and continues;
occurrences freshly created by the removal are not revisited.  The fuel is
only a termination device; `stripTag` instantiates it with the list
length, which is always sufficient. -/
def stripTagF : Nat → List Char → List Char
  | 0, l => l
  | _ + 1, [] => []
  | fuel + 1, c :: cs =>
    if tag.isPrefixOf (c :: cs) then stripTagF fuel (cs.drop (tag.length - 1))
    else c :: stripTagF fuel cs

/-- Python `s.replace(' (디카페인)', '')` on character lists. -/
def stripTag (l : List Char) : List Char := stripTagF l.length l

/-- Python `str.strip()` whitespace predicate, restricted to the ASCII
whitespace that can occur in this repository's data. -/
def ws (c : Char) : Bool := c.isWhitespace

/-- Remove trailing whitespace (the right half of Python `str.strip()`). -/
def dropTrailing (l : List Char) : List Char := (l.reverse.dropWhile ws).reverse

/-- Python `str.strip()` on character lists. -/
def pyStrip (l : List Char) : List Char := dropTrailing (l.dropWhile ws)

/-- Python `item['name'].replace(' (디카페인)', '').strip()` — the grouping
key of the normalizer (`ediya_deduplication.py`, line 26). -/
def normalizeName (s : String) : String := ⟨pyStrip (stripTag s.data)⟩

/-- First maximal run of (ASCII) decimal digits in a character list, i.e.
what `re.search(r'\d+', s)` matches (empty when there is no digit). -/
def firstDigitRun : List Char → List Char
  | [] => []
  | c :: cs => if c.isDigit then c :: cs.takeWhile Char.isDigit else firstDigitRun cs

/-- Value of a run of decimal digits (what Python `int` returns on it;
Python integers are unbounded, hence `Nat`). -/
def digitsToNat (ds : List Char) : Nat := ds.foldl (fun a c => a * 10 + (c.toNat - 48)) 0

/-- Python `int(re.search(r'\d+', str(s)).group()) if re.search(r'\d+', str(s)) else 0`
— the normalizer's caffeine extraction (`ediya_deduplication.py`, line 41). -/
def extractCaffeine (s : String) : Nat := digitsToNat (firstDigitRun s.data)

/-- Python `"".join(filter(str.isdigit, value_str.split('.')[0]))` converted by
`int` with `0` fallback — the RAG builder's per-field nutrition extraction
(`app.py`, lines 111-112).  `split('.')[0]` is the prefix before the first
dot; `filter(str.isdigit, ...)` concatenates all digits of that prefix. -/
def appExtractNutrition (s : String) : Nat :=
  digitsToNat ((s.data.takeWhile (fun c => decide (c ≠ '.'))).filter Char.isDigit)

/-- One menu record, the JSON shape shared by all stages.  Fields the JSON
may omit (or hold `None`) are modelled as `""` / `[]`, matching how the
Python code defaults them on read (`item.get(...) or ''`,
`item.get('nutrition', {})`). -/
structure MenuRecord where
  brand : String
  name : String
  category : String
  image_url : String
  description : String
  price : String
  nutrition : List (String × String)
deriving DecidableEq, Inhabited, Repr

/-- Python `dict.get(k, d)` on the (unique-keyed) nutrition mapping. -/
def lookupD (m : List (String × String)) (k d : String) : String :=
  match m.find? (fun p => p.1 == k) with
  | some p => p.2
  | none => d

/-- Python `item.get('nutrition', {}).get('카페인', '0')` fed to the caffeine
extraction (`ediya_deduplication.py`, lines 40-41). -/
def caffeineOf (r : MenuRecord) : Nat := extractCaffeine (lookupD r.nutrition "카페인" "0")

/-- The normalizer's grouping key of a record. -/
def baseOf (r : MenuRecord) : String := normalizeName r.name

/-! ## The deduplication / normalization pass (`clean_ediya_data`) -/

/-- Python `enumerate(data)` starting at `n`. -/
def enumFrom {α : Type} : Nat → List α → List (Nat × α)
  | _, [] => []
  | n, r :: rs => (n, r) :: enumFrom (n + 1) rs

/-- Python `items_by_name[normalized_name].append({'index': index, 'item': item})`
on an insertion-ordered association list: append the pair to the first
entry with the given key, or add a new entry at the end (the behaviour of
a Python `defaultdict(list)` under insertion). -/
def addToGroups (gs : List (String × List (Nat × MenuRecord))) (k : String)
    (v : Nat × MenuRecord) : List (String × List (Nat × MenuRecord)) :=
  match gs with
  | [] => [(k, [v])]
  | e :: rest => if e.1 == k then (e.1, e.2 ++ [v]) :: rest else e :: addToGroups rest k v

/-- The grouping loop of `clean_ediya_data` (lines 23-27): group the
enumerated records by normalized name, keys in first-occurrence order. -/
def buildGroups (data : List MenuRecord) : List (String × List (Nat × MenuRecord)) :=
  (enumFrom 0 data).foldl (fun gs p => addToGroups gs (baseOf p.2) p) []

/-- The minimum-caffeine scan of lines 34-49, seeded with `(m, v)` (the
current minimum): replace the current minimum only on a strictly smaller
value, so ties keep the earlier item. -/
def scanMinFrom (m : Nat) (v : Nat) : List (Nat × MenuRecord) → Nat × Nat
  | [] => (m, v)
  | p :: ps =>
    if caffeineOf p.2 < v then scanMinFrom p.1 (caffeineOf p.2) ps else scanMinFrom m v ps

/-- The whole minimum scan: starting from `min_caffeine_value = inf`,
`min_caffeine_item_info = None`, the first item always wins the first
comparison, so a nonempty group always yields a minimum.  (In the string
model the `except (ValueError, AttributeError)` handler of lines 47-49 is
dead: the guarded `re.search` branch never raises.) -/
def scanMin : List (Nat × MenuRecord) → Option (Nat × Nat)
  | [] => none
  | p :: ps => some (scanMinFrom p.1 (caffeineOf p.2) ps)

/-- The rewrite loop of lines 52-61 for one duplicate group: every member
at index `p.1` first has its name reset to the base name `k` (line 56),
and the minimum-caffeine member `mi` additionally gets the suffix
appended (line 59, so its name becomes `k ++ tagStr` in one step) and
bumps `modified_count` (line 60). -/
def rewriteFold (k : String) (mi : Nat) (dc : List MenuRecord × Nat)
    (items : List (Nat × MenuRecord)) : List MenuRecord × Nat :=
  items.foldl
    (fun dc p =>
      if p.1 = mi then
        (dc.1.set p.1 { dc.1.getD p.1 default with name := k ++ tagStr }, dc.2 + 1)
      else
        (dc.1.set p.1 { dc.1.getD p.1 default with name := k }, dc.2))
    dc

/-- Lines 30-61 for a single group `(k, items)` acting on the whole
collection `d` with the running modified counter `c`: groups with one
member are skipped; otherwise the minimum scan selects the "decaf"
member and the rewrite loop relabels the group. -/
def applyGroup (dc : List MenuRecord × Nat) (k : String)
    (items : List (Nat × MenuRecord)) : List MenuRecord × Nat :=
  if 1 < items.length then
    match scanMin items with
    | some (mi, _) => rewriteFold k mi dc items
    | none => dc
  else dc

/-- The full normalization pass `clean_ediya_data` on an in-memory
collection: returns the rewritten collection and `modified_count`. -/
def clean_ediya_data (data : List MenuRecord) : List MenuRecord × Nat :=
  (buildGroups data).foldl (fun dc e => applyGroup dc e.1 e.2) (data, 0)

/-- The rewritten collection produced by the pass. -/
def cleanedData (data : List MenuRecord) : List MenuRecord :=
  (clean_ediya_data data).1

/-- The `modified_count` reported by the pass. -/
def modifiedCount (data : List MenuRecord) : Nat :=
  (clean_ediya_data data).2

/-- Lines 63-65: the collection is written back to the JSON file iff
`modified_count > 0`. -/
def writesBack (data : List MenuRecord) : Bool :=
  decide (0 < modifiedCount data)

/-! ## Specification-side views of the pass -/

/-- Grouping key of the record at position `i`. -/
def keyOf (data : List MenuRecord) (i : Nat) : String := baseOf (data.getD i default)

/-- The duplicate-name group of key `k`, as the (increasing) list of the
positions of the records whose base name is `k`. -/
def grp (data : List MenuRecord) (k : String) : List Nat :=
  (List.range data.length).filter (fun i => keyOf data i == k)

/-- Parsed caffeine value of the record at position `i`. -/
def caffAt (data : List MenuRecord) (i : Nat) : Nat := caffeineOf (data.getD i default)

/-- Position `j` attains the smallest parsed caffeine value of the group `g`. -/
def isMinIn (data : List MenuRecord) (g : List Nat) (j : Nat) : Bool :=
  decide (∀ j' ∈ g, caffAt data j ≤ caffAt data j')

/-- The first member of `g` (hence the first in input order) attaining the
smallest parsed caffeine value — the "decaf" representative. -/
def firstMin (data : List MenuRecord) (g : List Nat) : Option Nat :=
  g.find? (isMinIn data g)

/-- The name the pass gives to the record at position `i`: untouched in a
group of size one, otherwise the base name, with the suffix appended
exactly on the first minimum-caffeine member. -/
def expectedName (data : List MenuRecord) (i : Nat) : String :=
  if (grp data (keyOf data i)).length ≤ 1 then (data.getD i default).name
  else
    match firstMin data (grp data (keyOf data i)) with
    | some m => if i = m then keyOf data i ++ tagStr else keyOf data i
    | none => (data.getD i default).name

/-- Whether the suffix occurs (as a contiguous substring) somewhere in
the list; mirrors the scanning structure of `stripTagF`. -/
def hasTag : List Char → Bool
  | [] => false
  | c :: cs => tag.isPrefixOf (c :: cs) || hasTag cs

/-- The items list stored for key `k` in an insertion-ordered grouping, or
`[]` when the key is absent. -/
def lookupG (gs : List (String × List (Nat × MenuRecord))) (k : String) :
    List (Nat × MenuRecord) :=
  match gs.find? (fun e => e.1 == k) with
  | some e => e.2
  | none => []

/-- The enumerated records whose base name is `k`. -/
def itemsOf (data : List MenuRecord) (k : String) : List (Nat × MenuRecord) :=
  (enumFrom 0 data).filter (fun p => baseOf p.2 == k)

/-! ## The RAG builder's document construction (`app.py`, lines 65-117) -/

/-- The f-string body of lines 76-80 (each `item.get(...) or ''` collapses
a missing/`None` field to `""`, which is how the record fields are
modelled). -/
def contentOf (r : MenuRecord) : String :=
  "브랜드: " ++ r.brand ++ "\n메뉴 이름: " ++ r.name ++ "\n카테고리: " ++ r.category ++
    "\n설명: " ++ r.description ++ "\n"

/-- Lines 82-84: the nutrition block, empty when the nutrition mapping is
empty (falsy). -/
def nutritionStr (r : MenuRecord) : String :=
  if r.nutrition.isEmpty then ""
  else "영양 정보:\n" ++ String.intercalate "\n" (r.nutrition.map (fun p => "  " ++ p.1 ++ ": " ++ p.2))

/-- Line 87: `final_content = (content + "\n" + nutrition_str).strip()`. -/
def finalContent (r : MenuRecord) : String :=
  ⟨pyStrip ((contentOf r ++ "\n" ++ nutritionStr r).data)⟩

/-- One document of the vector store; the structured nutrition metadata is
produced field-by-field by `appExtractNutrition` and is modelled by that
function directly, so the document carries the textual fields. -/
structure RagDoc where
  page_content : String
  brand : String
  name : String
  category : String
deriving DecidableEq, Repr

/-- Line 88: `if not final_content or not name: continue` — a record
yields a document iff its stripped body is truthy and its name is truthy. -/
def keepsRecord (r : MenuRecord) : Bool :=
  !(finalContent r == "") && !(r.name == "")

/-- The document set built from the combined record collections. -/
def buildDocuments (items : List MenuRecord) : List RagDoc :=
  items.filterMap fun r =>
    if keepsRecord r then some ⟨finalContent r, r.brand, r.name, r.category⟩ else none

/-! ## Data loading (`app.py`, lines 24-53 and 340-352)

The file system is modelled by an explicit content datatype: a JSON file
is missing, holds malformed JSON, or parses to a value.  A Python
exception escaping the function is modelled as `Except.error`. -/

/-- Contents of one brand menu JSON file. -/
inductive BrandFile where
  | missing
  | malformed
  | ok (records : List MenuRecord)
deriving DecidableEq

/-- Reading one brand file inside `load_data`: only `FileNotFoundError`
is caught (logging `st.error` and keeping the empty default, reported here
as the `Bool`); a `json.JSONDecodeError` raised by `json.load` is not
handled and propagates. -/
def loadBrandFile : BrandFile → Except String (List MenuRecord × Bool)
  | .missing => .ok ([], true)
  | .malformed => .error "json.decoder.JSONDecodeError"
  | .ok rs => .ok (rs, false)

/-- Python `load_data`: the three brand files are read in sequence; an exception
raised on any of them escapes the whole function. -/
def load_data (sb ed gc : BrandFile) :
    Except String ((List MenuRecord × Bool) × (List MenuRecord × Bool) × (List MenuRecord × Bool)) := do
  let s ← loadBrandFile sb
  let e ← loadBrandFile ed
  let g ← loadBrandFile gc
  return (s, e, g)

/-- Contents of the recommended-questions JSON file. -/
inductive QuestionsFile where
  | missing
  | malformed
  | ok (questions : List String)
deriving DecidableEq

/-- Python `load_recommended_questions`: both `FileNotFoundError` (first `Bool`:
`st.warning` logged) and `json.JSONDecodeError` (second `Bool`:
`st.error` logged) are caught, each yielding the empty list; no exception
escapes. -/
def load_recommended_questions : QuestionsFile → Except String (List String × Bool × Bool)
  | .missing => .ok ([], true, false)
  | .malformed => .ok ([], false, true)
  | .ok qs => .ok (qs, false, false)

/-! ## Concrete inputs used by witnesses and counterexamples -/

/-- An Ediya record with the given display name and caffeine string. -/
def mkItem (n caf : String) : MenuRecord :=
  ⟨"Ediya", n, "커피", "", "", "", [("카페인", caf)]⟩

/-- The spec's own scenario: two records named `아메리카노` with caffeine
`150mg` and `0mg`. -/
def pairAmericano : List MenuRecord :=
  [mkItem "아메리카노" "150mg", mkItem "아메리카노" "0mg"]

/-- An already-normalized caffeinated/decaf pair. -/
def pairNormalized : List MenuRecord :=
  [mkItem "아메리카노" "150mg", mkItem "아메리카노 (디카페인)" "0mg"]

/-- Two records whose name contains a *nested* occurrence of the suffix:
stripping `" (디카페인)"` from `"A (디카 (디카페인)페인)"` joins the two halves
into a fresh `"A (디카페인)"` that the non-rescanning `str.replace` keeps. -/
def pairNested : List MenuRecord :=
  [mkItem "A (디카 (디카페인)페인)" "0", mkItem "A (디카 (디카페인)페인)" "0"]

/-- Three records sharing one base name. -/
def tripleA : List MenuRecord :=
  [mkItem "A" "5mg", mkItem "A" "5mg", mkItem "A" "5mg"]

/-- A duplicate pair in which both caffeine strings contain no digit. -/
def pairDash : List MenuRecord :=
  [mkItem "라떼" "-", mkItem "라떼" "없음"]

/-- A record with an empty name but a nonempty description. -/
def emptyNameItem : MenuRecord :=
  ⟨"Ediya", "", "", "", "맛있는 음료", "", []⟩

/-! # Theorems

## The suffix-stripping scan -/

theorem tagStr_data : tagStr.data = tag := by decide

theorem stripTagF_nil (n : Nat) : stripTagF n ([] : List Char) = [] := by
  cases n <;> rfl

theorem tag_length : tag.length = 7 := rfl

theorem stripTagF_fuel (n : Nat) : ∀ (m : Nat) (l : List Char),
    l.length ≤ n → l.length ≤ m → stripTagF n l = stripTagF m l := by
  induction n with
  | zero =>
    intro m l hn _
    have hl : l = [] := List.length_eq_zero.mp (Nat.le_zero.mp hn)
    subst hl
    simp [stripTagF_nil]
  | succ n ih =>
    intro m l hn hm
    cases l with
    | nil => simp [stripTagF_nil]
    | cons c cs =>
      have hn' : cs.length ≤ n := by simp at hn; omega
      cases m with
      | zero => simp at hm
      | succ m =>
        have hm' : cs.length ≤ m := by simp at hm; omega
        simp only [stripTagF]
        by_cases h : tag.isPrefixOf (c :: cs) = true
        · rw [if_pos h, if_pos h]
          exact ih _ _ (by simp [tag_length]; omega) (by simp [tag_length]; omega)
        · rw [if_neg h, if_neg h, ih m cs hn' hm']

theorem stripTag_nil : stripTag [] = [] := rfl

theorem stripTag_cons_pos (c : Char) (cs : List Char)
    (h : tag.isPrefixOf (c :: cs) = true) :
    stripTag (c :: cs) = stripTag (cs.drop 6) := by
  show stripTagF (c :: cs).length (c :: cs) = _
  have h6 : tag.length - 1 = 6 := rfl
  have h1 : stripTagF (c :: cs).length (c :: cs) = stripTagF cs.length (cs.drop 6) := by
    simp only [List.length_cons, stripTagF, if_pos h, h6]
  rw [h1]
  exact stripTagF_fuel cs.length (cs.drop 6).length (cs.drop 6)
    (by simp) le_rfl

theorem stripTag_cons_neg (c : Char) (cs : List Char)
    (h : tag.isPrefixOf (c :: cs) = false) :
    stripTag (c :: cs) = c :: stripTag cs := by
  show stripTagF (c :: cs).length (c :: cs) = _
  have h' : ¬ tag.isPrefixOf (c :: cs) = true := by simp [h]
  simp only [List.length_cons, stripTagF, if_neg h']
  rfl

theorem hasTag_cons (c : Char) (cs : List Char) :
    hasTag (c :: cs) = (tag.isPrefixOf (c :: cs) || hasTag cs) := rfl

/-- When the suffix occurs nowhere in the list, the stripping scan is the
identity. -/
theorem stripTag_of_not_hasTag : ∀ (l : List Char), hasTag l = false → stripTag l = l := by
  intro l
  induction l with
  | nil => intro _; rfl
  | cons c cs ih =>
    intro h
    rw [hasTag_cons, Bool.or_eq_false_iff] at h
    rw [stripTag_cons_neg c cs h.1, ih h.2]

/-- The suffix has no nontrivial border: no proper prefix of it is also a
proper suffix.  This is what rules out occurrences of the suffix that
straddle the junction of `k ++ tag`. -/
theorem tag_no_border (n : Nat) (h1 : 1 ≤ n) (h2 : n < 7) : tag.take (7 - n) ≠ tag.drop n := by
  interval_cases n <;> decide

/-- If the suffix occurs nowhere in the nonempty list `c :: k`, then the
suffix is not a prefix of `(c :: k) ++ tag` either: a straddling
occurrence would give the suffix a nontrivial border. -/
theorem not_isPrefixOf_append_tag (c : Char) (k : List Char)
    (hk : hasTag (c :: k) = false) : tag.isPrefixOf ((c :: k) ++ tag) = false := by
  by_contra hcon
  rw [Bool.not_eq_false] at hcon
  have hpre : tag <+: (c :: k) ++ tag := Iff.mp List.isPrefixOf_iff_prefix hcon
  obtain ⟨t, ht⟩ := hpre
  rcases Nat.lt_or_ge (c :: k).length 7 with hlen | hlen
  · have hn1 : 1 ≤ (c :: k).length := by simp
    have hdrop : tag.drop (c :: k).length ++ t = tag := by
      have h0 := congrArg (List.drop (c :: k).length) ht
      rw [List.drop_append_eq_append_drop, List.drop_append_eq_append_drop] at h0
      simp only [Nat.sub_self, List.drop_length, List.drop_zero, List.nil_append] at h0
      rw [tag_length] at h0
      rwa [Nat.sub_eq_zero_of_le (Nat.le_of_lt hlen), List.drop_zero] at h0
    have hborder : tag.take (7 - (c :: k).length) = tag.drop (c :: k).length := by
      have h0 := congrArg (List.take (7 - (c :: k).length)) hdrop
      rw [List.take_append_eq_append_take] at h0
      have hdl : (tag.drop (c :: k).length).length = 7 - (c :: k).length := by
        rw [List.length_drop, tag_length]
      rw [List.take_of_length_le (le_of_eq hdl), hdl, Nat.sub_self, List.take_zero,
        List.append_nil] at h0
      exact h0.symm
    exact tag_no_border (c :: k).length hn1 hlen hborder
  · have htake : tag = (c :: k).take 7 := by
      have h0 := congrArg (List.take 7) ht
      rw [List.take_append_eq_append_take, List.take_append_eq_append_take] at h0
      rw [tag_length] at h0
      simp only [Nat.sub_self, List.take_zero, List.append_nil] at h0
      rw [List.take_of_length_le (by rw [tag_length]),
        Nat.sub_eq_zero_of_le hlen, List.take_zero, List.append_nil] at h0
      exact h0
    have hpre2 : tag <+: c :: k := htake ▸ List.take_prefix 7 (c :: k)
    have : tag.isPrefixOf (c :: k) = true := Iff.mpr List.isPrefixOf_iff_prefix hpre2
    rw [hasTag_cons, this, Bool.true_or] at hk
    exact Bool.noConfusion hk

/-- Appending the suffix to a list in which it occurs nowhere and then
stripping recovers the original list. -/
theorem stripTag_append_tag : ∀ (k : List Char), hasTag k = false → stripTag (k ++ tag) = k := by
  intro k
  induction k with
  | nil => intro _; decide
  | cons c k2 ih =>
    intro h
    have hparts := h
    rw [hasTag_cons, Bool.or_eq_false_iff] at hparts
    have hnp : tag.isPrefixOf ((c :: k2) ++ tag) = false := not_isPrefixOf_append_tag c k2 h
    have hcons : (c :: k2) ++ tag = c :: (k2 ++ tag) := rfl
    rw [hcons] at hnp
    rw [hcons, stripTag_cons_neg c (k2 ++ tag) hnp, ih hparts.2]

/-! ## Python `str.strip` -/

theorem dropWhile_dropWhile (p : Char → Bool) (l : List Char) :
    (l.dropWhile p).dropWhile p = l.dropWhile p := by
  induction l with
  | nil => rfl
  | cons c cs ih =>
    by_cases h : p c = true
    · rw [List.dropWhile_cons, if_pos h, ih]
    · rw [List.dropWhile_cons, if_neg h, List.dropWhile_cons, if_neg h]

theorem dropTrailing_dropTrailing (l : List Char) :
    dropTrailing (dropTrailing l) = dropTrailing l := by
  unfold dropTrailing
  rw [List.reverse_reverse, dropWhile_dropWhile]

theorem dropTrailing_prefix_self (l : List Char) : dropTrailing l <+: l := by
  have h := Iff.mpr List.reverse_prefix (@List.dropWhile_suffix _ l.reverse ws)
  rwa [List.reverse_reverse] at h

theorem head_not_of_dropWhile_eq (p : Char → Bool) (c : Char) (cs : List Char)
    (h : (c :: cs).dropWhile p = c :: cs) : p c = false := by
  by_contra hc
  rw [Bool.not_eq_false] at hc
  rw [List.dropWhile_cons, if_pos hc] at h
  have hle := (@List.dropWhile_suffix _ cs p).length_le
  rw [h] at hle
  simp at hle

theorem mem_dropWhile_of_not (p : Char → Bool) (c : Char) :
    ∀ (l : List Char), c ∈ l → p c = false → c ∈ l.dropWhile p := by
  intro l
  induction l with
  | nil => intro h; simp at h
  | cons a as ih =>
    intro hmem hpc
    by_cases ha : p a = true
    · rw [List.dropWhile_cons, if_pos ha]
      rcases List.mem_cons.mp hmem with rfl | h2
      · rw [hpc] at ha; exact Bool.noConfusion ha
      · exact ih h2 hpc
    · rw [List.dropWhile_cons, if_neg ha]; exact hmem

theorem pyStrip_idem (l : List Char) : pyStrip (pyStrip l) = pyStrip l := by
  have h1 : (dropTrailing (l.dropWhile ws)).dropWhile ws = dropTrailing (l.dropWhile ws) := by
    rcases hdt : dropTrailing (l.dropWhile ws) with _ | ⟨c, cs⟩
    · rfl
    · have hpre := dropTrailing_prefix_self (l.dropWhile ws)
      rw [hdt] at hpre
      obtain ⟨t, ht⟩ := hpre
      have hwc : ws c = false := by
        apply head_not_of_dropWhile_eq ws c (cs ++ t)
        rw [show c :: (cs ++ t) = (c :: cs) ++ t from rfl, ht]
        exact dropWhile_dropWhile ws l
      rw [List.dropWhile_cons, if_neg (by simp [hwc])]
  show dropTrailing ((dropTrailing (l.dropWhile ws)).dropWhile ws) = _
  rw [h1, dropTrailing_dropTrailing]
  rfl

theorem pyStrip_ne_nil (l : List Char) (c : Char) (hc : c ∈ l) (hw : ws c = false) :
    pyStrip l ≠ [] := by
  show dropTrailing (l.dropWhile ws) ≠ []
  have m1 : c ∈ l.dropWhile ws := mem_dropWhile_of_not ws c l hc hw
  have m2 : c ∈ (l.dropWhile ws).reverse := List.mem_reverse.mpr m1
  have m3 : c ∈ (l.dropWhile ws).reverse.dropWhile ws := mem_dropWhile_of_not ws c _ m2 hw
  unfold dropTrailing
  intro hnil
  rw [List.reverse_eq_nil_iff] at hnil
  rw [hnil] at m3
  simp at m3

/-! ## The grouping key -/

theorem string_data_append (a b : String) : (a ++ b).data = a.data ++ b.data := rfl

theorem normalizeName_data (s : String) :
    (normalizeName s).data = pyStrip (stripTag s.data) := rfl

/-- Normalizing is the identity on a key that carries no occurrence of the
suffix. -/
theorem normalizeName_of_clean (s : String) (h : hasTag (normalizeName s).data = false) :
    normalizeName (normalizeName s) = normalizeName s := by
  apply String.ext
  rw [normalizeName_data, stripTag_of_not_hasTag _ h, normalizeName_data]
  exact pyStrip_idem _

/-- Normalizing `key ++ suffix` recovers `key` when the key carries no
occurrence of the suffix. -/
theorem normalizeName_append_tag (s : String) (h : hasTag (normalizeName s).data = false) :
    normalizeName (normalizeName s ++ tagStr) = normalizeName s := by
  apply String.ext
  rw [normalizeName_data]
  have hd : (normalizeName s ++ tagStr).data = (normalizeName s).data ++ tag := by
    rw [string_data_append, tagStr_data]
  rw [hd, stripTag_append_tag _ h, normalizeName_data]
  exact pyStrip_idem _

/-! ## Numeric extraction -/

theorem firstDigitRun_of_no_digit : ∀ (l : List Char),
    l.all (fun c => !c.isDigit) = true → firstDigitRun l = [] := by
  intro l
  induction l with
  | nil => intro _; rfl
  | cons c cs ih =>
    intro h
    rw [List.all_cons, Bool.and_eq_true] at h
    have hc : c.isDigit = false := by simpa using h.1
    simp only [firstDigitRun]
    rw [if_neg (by simp [hc])]
    exact ih h.2

theorem takeWhile_append_of_all (p : Char → Bool) : ∀ (d b : List Char),
    d.all p = true → (d ++ b).takeWhile p = d ++ b.takeWhile p := by
  intro d
  induction d with
  | nil => intro b _; rfl
  | cons c ds ih =>
    intro b h
    rw [List.all_cons, Bool.and_eq_true] at h
    rw [List.cons_append, List.takeWhile_cons, if_pos h.1, ih b h.2]
    rfl

theorem takeWhile_nil_of_head_not (p : Char → Bool) (b : List Char)
    (h : b = [] ∨ ∃ c bs, b = c :: bs ∧ p c = false) : b.takeWhile p = [] := by
  rcases h with rfl | ⟨c, bs, rfl, hc⟩
  · rfl
  · rw [List.takeWhile_cons, if_neg (by simp [hc])]

theorem firstDigitRun_decompose (d b : List Char)
    (hd : d ≠ []) (hdall : d.all Char.isDigit = true)
    (hb : b = [] ∨ ∃ c bs, b = c :: bs ∧ c.isDigit = false) :
    ∀ (a : List Char), a.all (fun c => !c.isDigit) = true →
      firstDigitRun (a ++ d ++ b) = d := by
  intro a
  induction a with
  | nil =>
    intro _
    rcases d with _ | ⟨c, ds⟩
    · exact absurd rfl hd
    · rw [List.all_cons, Bool.and_eq_true] at hdall
      rw [List.nil_append, List.cons_append]
      simp only [firstDigitRun]
      rw [if_pos hdall.1, takeWhile_append_of_all _ ds b hdall.2,
        takeWhile_nil_of_head_not Char.isDigit b hb, List.append_nil]
  | cons c as ih =>
    intro ha
    rw [List.all_cons, Bool.and_eq_true] at ha
    have hc : c.isDigit = false := by simpa using ha.1
    rw [List.cons_append, List.cons_append]
    simp only [firstDigitRun]
    rw [if_neg (by simp [hc])]
    exact ih ha.2

/-- C4, counterexample: on `".5g"` every character before the first
decimal point is a non-digit, so the claim ("the integer formed by the
first run of decimal digits occurring before any decimal point, 0 when no
such digits are found") demands `0`; the normalizer's extraction
(`re.search(r'\d+')`) takes the first digit run anywhere in the string and
returns `5`. -/
theorem C4_counterexample :
    ((".5g" : String).data.takeWhile (fun c => decide (c ≠ '.'))).all (fun c => !c.isDigit) = true ∧
    extractCaffeine ".5g" = 5 := by
  constructor <;> decide

/-- C4 (amended): the normalizer's numeric extraction returns the
integer formed by the first run of decimal digits occurring *anywhere* in
the string (which on inputs like `"150mg"`/`"12.5g"` is the run before
the decimal point), and returns 0 when the string contains no digits,
without raising. -/
theorem C4_amended_extraction :
    (∀ s : String, s.data.all (fun c => !c.isDigit) = true → extractCaffeine s = 0) ∧
    (∀ (s : String) (a d b : List Char), s.data = a ++ d ++ b →
      a.all (fun c => !c.isDigit) = true → d ≠ [] → d.all Char.isDigit = true →
      (b = [] ∨ ∃ c bs, b = c :: bs ∧ c.isDigit = false) →
      extractCaffeine s = digitsToNat d) ∧
    extractCaffeine "150mg" = 150 ∧ extractCaffeine "12.5g" = 12 := by
  refine ⟨?_, ?_, by decide, by decide⟩
  · intro s h
    unfold extractCaffeine
    rw [firstDigitRun_of_no_digit _ h]
    rfl
  · intro s a d b hs ha hd hdall hb
    unfold extractCaffeine
    rw [hs, firstDigitRun_decompose d b hd hdall hb a ha]

/-- Witness for `C4_amended_extraction` at concrete inputs. -/
theorem C4_amended_extraction_witness :
    extractCaffeine "호150mg" = digitsToNat (['1', '5', '0'] : List Char) ∧
    extractCaffeine "카페인없음" = 0 :=
  ⟨C4_amended_extraction.2.1 "호150mg" ['호'] ['1', '5', '0'] ['m', 'g'] (by decide) (by decide)
      (by decide) (by decide) (Or.inr ⟨'m', ['g'], by decide, by decide⟩),
    C4_amended_extraction.1 "카페인없음" (by decide)⟩

/-- C5, counterexample: the two extraction implementations are not
equal as functions on strings — on `".5g"` the RAG builder's extraction
(all digits before the first `.`) yields `0` while the normalizer's
extraction (first digit run anywhere) yields `5`. -/
theorem C5_counterexample : appExtractNutrition ".5g" ≠ extractCaffeine ".5g" := by
  decide

/-- C5 (amended): the two extractions agree (both returning the value
of the digit run) on every string of the shape
`prefix ++ digits ++ rest` where the prefix contains no digit and no
decimal point, the digit run is nonempty and maximal (the rest starts
with a non-digit), and the rest contains no digit before its first
decimal point — which covers the well-formed nutrition strings such as
`"150mg"` and `"12.5g"`.  In general they differ (`C5_counterexample`). -/
theorem C5_amended_agreement (s : String) (a d b : List Char)
    (hs : s.data = a ++ d ++ b)
    (ha : a.all (fun c => !c.isDigit && decide (c ≠ '.')) = true)
    (hd : d ≠ []) (hdall : d.all Char.isDigit = true)
    (hb : b = [] ∨ ∃ c bs, b = c :: bs ∧ c.isDigit = false)
    (hbdot : (b.takeWhile (fun c => decide (c ≠ '.'))).all (fun c => !c.isDigit) = true) :
    appExtractNutrition s = extractCaffeine s := by
  have ha1 : a.all (fun c => !c.isDigit) = true := by
    rw [List.all_eq_true] at ha ⊢
    intro c hc
    have hcc := ha c hc
    rw [Bool.and_eq_true] at hcc
    exact hcc.1
  have ha2 : a.all (fun c => decide (c ≠ '.')) = true := by
    rw [List.all_eq_true] at ha ⊢
    intro c hc
    have hcc := ha c hc
    rw [Bool.and_eq_true] at hcc
    exact hcc.2
  have hddot : d.all (fun c => decide (c ≠ '.')) = true := by
    rw [List.all_eq_true] at hdall ⊢
    intro c hc
    have hcd := hdall c hc
    simp only [decide_eq_true_eq]
    intro hEq
    rw [hEq] at hcd
    exact Bool.noConfusion hcd
  unfold appExtractNutrition extractCaffeine
  rw [hs]
  rw [show a ++ d ++ b = (a ++ d) ++ b from rfl]
  rw [takeWhile_append_of_all _ (a ++ d) b
    (by rw [List.all_append, ha2, hddot]; rfl)]
  rw [List.filter_append, List.filter_append]
  rw [List.filter_eq_nil_iff.mpr (by
    rw [List.all_eq_true] at ha1
    intro c hc
    have := ha1 c hc
    simp only [Bool.not_eq_true'] at this
    simp [this])]
  rw [List.filter_eq_self.mpr (by
    rw [List.all_eq_true] at hdall
    intro c hc
    exact hdall c hc)]
  rw [List.filter_eq_nil_iff.mpr (by
    rw [List.all_eq_true] at hbdot
    intro c hc
    have := hbdot c hc
    simp only [Bool.not_eq_true'] at this
    simp [this])]
  rw [List.nil_append, List.append_nil]
  rw [show (a ++ d) ++ b = a ++ d ++ b from rfl,
    firstDigitRun_decompose d b hd hdall hb a ha1]

/-- Witness for `C5_amended_agreement` at the spec's own example
inputs. -/
theorem C5_amended_agreement_witness :
    appExtractNutrition "150mg" = extractCaffeine "150mg" ∧
    appExtractNutrition "12.5g" = extractCaffeine "12.5g" :=
  ⟨C5_amended_agreement "150mg" [] ['1', '5', '0'] ['m', 'g'] (by decide) (by decide)
      (by decide) (by decide) (Or.inr ⟨'m', ['g'], by decide, by decide⟩) (by decide),
    C5_amended_agreement "12.5g" [] ['1', '2'] ['.', '5', 'g'] (by decide) (by decide)
      (by decide) (by decide) (Or.inr ⟨'.', ['5', 'g'], by decide, by decide⟩) (by decide)⟩

/-! ## Grouping -/

theorem enumFrom_eq_map_range {α : Type} [Inhabited α] :
    ∀ (l : List α) (n : Nat),
      enumFrom n l = (List.range l.length).map (fun j => (j + n, l.getD j default)) := by
  intro l
  induction l with
  | nil => intro n; rfl
  | cons a as ih =>
    intro n
    show (n, a) :: enumFrom (n + 1) as = _
    rw [List.length_cons, List.range_succ_eq_map, List.map_cons]
    simp only [Nat.zero_add, List.getD_cons_zero]
    rw [ih (n + 1), List.map_map]
    congr 1
    apply List.map_congr_left
    intro j hj
    simp only [Function.comp_apply, List.getD_cons_succ]
    congr 1
    omega

theorem filter_map_comm {α β : Type} (f : α → β) (p : β → Bool) :
    ∀ (l : List α), (l.map f).filter p = (l.filter (fun a => p (f a))).map f := by
  intro l
  induction l with
  | nil => rfl
  | cons a as ih => by_cases h : p (f a) = true <;> simp [List.filter_cons, h, ih]

theorem itemsOf_map_fst (data : List MenuRecord) (k : String) :
    (itemsOf data k).map Prod.fst = grp data k := by
  unfold itemsOf grp keyOf
  rw [enumFrom_eq_map_range, filter_map_comm, List.map_map]
  simp only [Function.comp, Nat.add_zero]
  exact List.map_id _

theorem mem_itemsOf (data : List MenuRecord) (k : String) (p : Nat × MenuRecord)
    (hp : p ∈ itemsOf data k) :
    p.1 < data.length ∧ data.getD p.1 default = p.2 ∧ baseOf p.2 = k := by
  unfold itemsOf at hp
  rw [List.mem_filter] at hp
  obtain ⟨hmem, hpred⟩ := hp
  rw [enumFrom_eq_map_range, List.mem_map] at hmem
  obtain ⟨j, hj, hpj⟩ := hmem
  rw [List.mem_range] at hj
  subst hpj
  refine ⟨by simpa using hj, by simp, by simpa using hpred⟩

theorem mem_grp_iff (data : List MenuRecord) (k : String) (i : Nat) :
    i ∈ grp data k ↔ i < data.length ∧ keyOf data i = k := by
  unfold grp
  rw [List.mem_filter, List.mem_range]
  simp

theorem grp_nodup (data : List MenuRecord) (k : String) : (grp data k).Nodup :=
  (List.nodup_range _).filter _

theorem grp_sorted (data : List MenuRecord) (k : String) :
    (grp data k).Pairwise (· < ·) :=
  (List.pairwise_lt_range _).filter _

theorem find?_entry_of_nodup
    (e : String × List (Nat × MenuRecord)) :
    ∀ (gs : List (String × List (Nat × MenuRecord))),
      (gs.map Prod.fst).Nodup → e ∈ gs →
      gs.find? (fun x => x.1 == e.1) = some e := by
  intro gs
  induction gs with
  | nil => intro _ he; simp at he
  | cons g rest ih =>
    intro hnd he
    rw [List.map_cons, List.nodup_cons] at hnd
    rcases List.mem_cons.mp he with rfl | hmem
    · rw [List.find?_cons_of_pos _ (by simp)]
    · have hne : g.1 ≠ e.1 := by
        intro hEq
        exact hnd.1 (hEq ▸ List.mem_map_of_mem Prod.fst hmem)
      rw [List.find?_cons_of_neg _ (by simp [hne]), ih hnd.2 hmem]

theorem lookupG_nil (k : String) : lookupG [] k = [] := rfl

theorem lookupG_cons (e : String × List (Nat × MenuRecord))
    (rest : List (String × List (Nat × MenuRecord))) (k : String) :
    lookupG (e :: rest) k = if (e.1 == k) = true then e.2 else lookupG rest k := by
  unfold lookupG
  by_cases h : (e.1 == k) = true
  · rw [@List.find?_cons_of_pos _ (fun x => x.1 == k) e rest h, if_pos h]
  · rw [@List.find?_cons_of_neg _ (fun x => x.1 == k) e rest h, if_neg h]

theorem addToGroups_cons (e : String × List (Nat × MenuRecord))
    (rest : List (String × List (Nat × MenuRecord))) (k : String) (v : Nat × MenuRecord) :
    addToGroups (e :: rest) k v
      = if (e.1 == k) = true then (e.1, e.2 ++ [v]) :: rest else e :: addToGroups rest k v := rfl

theorem addToGroups_map_fst (k : String) (v : Nat × MenuRecord) :
    ∀ (gs : List (String × List (Nat × MenuRecord))),
      (addToGroups gs k v).map Prod.fst
        = if k ∈ gs.map Prod.fst then gs.map Prod.fst else gs.map Prod.fst ++ [k] := by
  intro gs
  induction gs with
  | nil => simp [addToGroups]
  | cons e rest ih =>
    rw [addToGroups_cons]
    by_cases h : (e.1 == k) = true
    · have hek : e.1 = k := by simpa using h
      rw [if_pos h]
      subst hek
      simp
    · have hne : ¬ e.1 = k := by simpa using h
      rw [if_neg h, List.map_cons, List.map_cons, ih]
      by_cases h2 : k ∈ rest.map Prod.fst
      · rw [if_pos h2, if_pos (List.mem_cons_of_mem _ h2)]
      · rw [if_neg h2, if_neg (by
          simp only [List.mem_cons]
          rintro (hEq | hmem)
          · exact hne hEq.symm
          · exact h2 hmem), List.cons_append]

theorem addToGroups_nodup (k : String) (v : Nat × MenuRecord)
    (gs : List (String × List (Nat × MenuRecord)))
    (hnd : (gs.map Prod.fst).Nodup) : ((addToGroups gs k v).map Prod.fst).Nodup := by
  rw [addToGroups_map_fst]
  by_cases h : k ∈ gs.map Prod.fst
  · rwa [if_pos h]
  · rw [if_neg h]
    simp [List.nodup_append, hnd, h]

theorem lookupG_addToGroups_eq (k : String) (v : Nat × MenuRecord) :
    ∀ (gs : List (String × List (Nat × MenuRecord))),
      lookupG (addToGroups gs k v) k = lookupG gs k ++ [v] := by
  intro gs
  induction gs with
  | nil =>
    show lookupG [(k, [v])] k = lookupG [] k ++ [v]
    rw [lookupG_cons, if_pos (by simp), lookupG_nil, List.nil_append]
  | cons e rest ih =>
    rw [addToGroups_cons]
    by_cases h : (e.1 == k) = true
    · rw [if_pos h, lookupG_cons, lookupG_cons]
      simp only [if_pos h]
    · rw [if_neg h, lookupG_cons, lookupG_cons, if_neg h, if_neg h, ih]

theorem lookupG_addToGroups_ne (k k2 : String) (v : Nat × MenuRecord) (hk : k2 ≠ k) :
    ∀ (gs : List (String × List (Nat × MenuRecord))),
      lookupG (addToGroups gs k v) k2 = lookupG gs k2 := by
  intro gs
  induction gs with
  | nil =>
    show lookupG [(k, [v])] k2 = lookupG [] k2
    rw [lookupG_cons, if_neg (by simpa using Ne.symm hk), lookupG_nil]
  | cons e rest ih =>
    rw [addToGroups_cons]
    by_cases h : (e.1 == k) = true
    · have hek : e.1 = k := by simpa using h
      have hne2 : ¬ (e.1 == k2) = true := by
        simp only [beq_iff_eq]
        rw [hek]
        exact Ne.symm hk
      rw [if_pos h, lookupG_cons, lookupG_cons, if_neg hne2, if_neg hne2]
    · rw [if_neg h, lookupG_cons, lookupG_cons]
      by_cases h2 : (e.1 == k2) = true
      · rw [if_pos h2, if_pos h2]
      · rw [if_neg h2, if_neg h2, ih]

theorem buildGroups_fold_spec :
    ∀ (ps : List (Nat × MenuRecord)) (gs : List (String × List (Nat × MenuRecord))),
      (gs.map Prod.fst).Nodup →
      ((ps.foldl (fun gs p => addToGroups gs (baseOf p.2) p) gs).map Prod.fst).Nodup ∧
      (∀ k, lookupG (ps.foldl (fun gs p => addToGroups gs (baseOf p.2) p) gs) k
            = lookupG gs k ++ ps.filter (fun p => baseOf p.2 == k)) ∧
      (∀ k, k ∈ (ps.foldl (fun gs p => addToGroups gs (baseOf p.2) p) gs).map Prod.fst
            ↔ k ∈ gs.map Prod.fst ∨ ∃ p ∈ ps, baseOf p.2 = k) := by
  intro ps
  induction ps with
  | nil =>
    intro gs hnd
    exact ⟨hnd, fun k => by simp, fun k => by simp⟩
  | cons p rest ih =>
    intro gs hnd
    rw [List.foldl_cons]
    have hstep := ih (addToGroups gs (baseOf p.2) p) (addToGroups_nodup _ _ _ hnd)
    refine ⟨hstep.1, ?_, ?_⟩
    · intro k
      rw [hstep.2.1 k]
      by_cases hk : baseOf p.2 = k
      · subst hk
        rw [lookupG_addToGroups_eq, List.filter_cons, if_pos (by simp)]
        simp
      · rw [lookupG_addToGroups_ne _ _ _ (fun h => hk h.symm),
          List.filter_cons, if_neg (by simp [hk])]
    · intro k
      rw [hstep.2.2 k]
      constructor
      · rintro (hgs | hrest)
        · rw [addToGroups_map_fst] at hgs
          by_cases h2 : baseOf p.2 ∈ gs.map Prod.fst
          · rw [if_pos h2] at hgs
            exact Or.inl hgs
          · rw [if_neg h2] at hgs
            rcases List.mem_append.mp hgs with h3 | h3
            · exact Or.inl h3
            · exact Or.inr ⟨p, List.mem_cons_self _ _, (List.mem_singleton.mp h3).symm⟩
        · obtain ⟨q, hq, hqk⟩ := hrest
          exact Or.inr ⟨q, List.mem_cons_of_mem _ hq, hqk⟩
      · rintro (hgs | ⟨q, hq, hqk⟩)
        · left
          rw [addToGroups_map_fst]
          by_cases h2 : baseOf p.2 ∈ gs.map Prod.fst
          · rwa [if_pos h2]
          · rw [if_neg h2]
            exact List.mem_append.mpr (Or.inl hgs)
        · rcases List.mem_cons.mp hq with rfl | hq2
          · left
            rw [addToGroups_map_fst]
            by_cases h2 : baseOf q.2 ∈ gs.map Prod.fst
            · rw [if_pos h2]
              exact hqk ▸ h2
            · rw [if_neg h2]
              exact List.mem_append.mpr (Or.inr (by simp [hqk]))
          · exact Or.inr ⟨q, hq2, hqk⟩

theorem buildGroups_nodup (data : List MenuRecord) :
    ((buildGroups data).map Prod.fst).Nodup :=
  (buildGroups_fold_spec (enumFrom 0 data) [] (by simp)).1

theorem lookupG_buildGroups (data : List MenuRecord) (k : String) :
    lookupG (buildGroups data) k = itemsOf data k := by
  have h := (buildGroups_fold_spec (enumFrom 0 data) [] (by simp)).2.1 k
  unfold buildGroups itemsOf
  rw [h]
  simp [lookupG]

theorem mem_buildGroups_keys (data : List MenuRecord) (k : String) :
    k ∈ (buildGroups data).map Prod.fst ↔ ∃ p ∈ enumFrom 0 data, baseOf p.2 = k := by
  have h := (buildGroups_fold_spec (enumFrom 0 data) [] (by simp)).2.2 k
  unfold buildGroups
  rw [h]
  simp

theorem entry_buildGroups (data : List MenuRecord) (e : String × List (Nat × MenuRecord))
    (he : e ∈ buildGroups data) : e.2 = itemsOf data e.1 := by
  have hf := find?_entry_of_nodup e (buildGroups data) (buildGroups_nodup data) he
  have hl := lookupG_buildGroups data e.1
  unfold lookupG at hl
  rw [hf] at hl
  exact hl

/-! ## The minimum-caffeine scan -/

theorem scanMinFrom_spec : ∀ (ps : List (Nat × MenuRecord)) (m v : Nat),
    ((scanMinFrom m v ps).2 ≤ v ∧ ∀ q ∈ ps, (scanMinFrom m v ps).2 ≤ caffeineOf q.2) ∧
    (((scanMinFrom m v ps).1 = m ∧ (scanMinFrom m v ps).2 = v) ∨
      ((scanMinFrom m v ps).2 < v ∧ ∃ pre q post, ps = pre ++ q :: post ∧
        (scanMinFrom m v ps).1 = q.1 ∧ (scanMinFrom m v ps).2 = caffeineOf q.2 ∧
        ∀ x ∈ pre, (scanMinFrom m v ps).2 < caffeineOf x.2)) := by
  intro ps
  induction ps with
  | nil => intro m v; exact ⟨⟨le_rfl, by simp⟩, Or.inl ⟨rfl, rfl⟩⟩
  | cons p ps ih =>
    intro m v
    by_cases h : caffeineOf p.2 < v
    · have heq : scanMinFrom m v (p :: ps) = scanMinFrom p.1 (caffeineOf p.2) ps := by
        simp only [scanMinFrom, if_pos h]
      rw [heq]
      obtain ⟨⟨hle, hall⟩, hcase⟩ := ih p.1 (caffeineOf p.2)
      refine ⟨⟨le_trans hle (le_of_lt h), ?_⟩, ?_⟩
      · intro q hq
        rcases List.mem_cons.mp hq with rfl | hq2
        · exact hle
        · exact hall q hq2
      · rcases hcase with ⟨h1, h2⟩ | ⟨hlt, pre, q, post, hps, h1, h2, hpre⟩
        · exact Or.inr ⟨by rw [h2]; exact h, [], p, ps, rfl, h1, h2, by simp⟩
        · refine Or.inr ⟨lt_trans hlt h, p :: pre, q, post, by rw [hps]; rfl, h1, h2, ?_⟩
          intro x hx
          rcases List.mem_cons.mp hx with rfl | hx2
          · exact hlt
          · exact hpre x hx2
    · have heq : scanMinFrom m v (p :: ps) = scanMinFrom m v ps := by
        simp only [scanMinFrom, if_neg h]
      rw [heq]
      obtain ⟨⟨hle, hall⟩, hcase⟩ := ih m v
      have hpv : v ≤ caffeineOf p.2 := le_of_not_lt h
      refine ⟨⟨hle, ?_⟩, ?_⟩
      · intro q hq
        rcases List.mem_cons.mp hq with rfl | hq2
        · exact le_trans hle hpv
        · exact hall q hq2
      · rcases hcase with ⟨h1, h2⟩ | ⟨hlt, pre, q, post, hps, h1, h2, hpre⟩
        · exact Or.inl ⟨h1, h2⟩
        · refine Or.inr ⟨hlt, p :: pre, q, post, by rw [hps]; rfl, h1, h2, ?_⟩
          intro x hx
          rcases List.mem_cons.mp hx with rfl | hx2
          · exact lt_of_lt_of_le hlt hpv
          · exact hpre x hx2

theorem scanMin_decompose (items : List (Nat × MenuRecord)) (mi mv : Nat)
    (h : scanMin items = some (mi, mv)) :
    ∃ pre q post, items = pre ++ q :: post ∧ mi = q.1 ∧ mv = caffeineOf q.2 ∧
      (∀ x ∈ pre, mv < caffeineOf x.2) ∧ (∀ x ∈ items, mv ≤ caffeineOf x.2) := by
  cases items with
  | nil => simp [scanMin] at h
  | cons q0 qs =>
    rw [show scanMin (q0 :: qs) = some (scanMinFrom q0.1 (caffeineOf q0.2) qs) from rfl] at h
    injection h with h
    have hspec := scanMinFrom_spec qs q0.1 (caffeineOf q0.2)
    rw [h] at hspec
    dsimp only at hspec
    obtain ⟨⟨hle, hall⟩, hcase⟩ := hspec
    rcases hcase with ⟨h1, h2⟩ | ⟨hlt, pre, q, post, hps, h1, h2, hpre⟩
    · refine ⟨[], q0, qs, rfl, h1, h2, by simp, ?_⟩
      intro x hx
      rcases List.mem_cons.mp hx with rfl | hx2
      · exact le_of_eq h2
      · exact hall x hx2
    · refine ⟨q0 :: pre, q, post, by rw [hps]; rfl, h1, h2, ?_, ?_⟩
      · intro x hx
        rcases List.mem_cons.mp hx with rfl | hx2
        · exact hlt
        · exact hpre x hx2
      · intro x hx
        rcases List.mem_cons.mp hx with rfl | hx2
        · exact le_of_lt hlt
        · exact hall x hx2

theorem find?_append_of_all_neg (p : Nat → Bool) (l2 : List Nat) :
    ∀ (l1 : List Nat), (∀ x ∈ l1, p x = false) → (l1 ++ l2).find? p = l2.find? p := by
  intro l1
  induction l1 with
  | nil => intro _; rfl
  | cons a as ih =>
    intro h
    rw [List.cons_append,
      List.find?_cons_of_neg _ (by simp [h a (List.mem_cons_self a as)]), ih]
    intro x hx
    exact h x (List.mem_cons_of_mem a hx)

/-- Bridging the implementation's scan over a duplicate group to the
specification view: the scan result is the first member of the group (in
input order) attaining the smallest parsed caffeine value. -/
theorem scanMin_itemsOf_firstMin (data : List MenuRecord) (k : String) (mi mv : Nat)
    (h : scanMin (itemsOf data k) = some (mi, mv)) :
    firstMin data (grp data k) = some mi ∧ mi ∈ grp data k ∧ caffAt data mi = mv ∧
      (∀ j ∈ grp data k, mv ≤ caffAt data j) ∧
      (∀ j ∈ grp data k, caffAt data j = mv → mi ≤ j) := by
  obtain ⟨pre, q, post, hitems, hmi, hmv, hpre, hall⟩ := scanMin_decompose _ _ _ h
  have hcaff : ∀ x ∈ itemsOf data k, caffeineOf x.2 = caffAt data x.1 := by
    intro x hx
    have hx2 := (mem_itemsOf data k x hx).2.1
    unfold caffAt
    rw [hx2]
  have hqmem : q ∈ itemsOf data k := by
    rw [hitems]
    exact List.mem_append.mpr (Or.inr (List.mem_cons_self _ _))
  have hmi_grp : mi ∈ grp data k := by
    rw [← itemsOf_map_fst, hmi]
    exact List.mem_map_of_mem Prod.fst hqmem
  have hmi_caff : caffAt data mi = mv := by
    rw [hmi, ← hcaff q hqmem, hmv]
  have hmin : ∀ j ∈ grp data k, mv ≤ caffAt data j := by
    intro j hj
    rw [← itemsOf_map_fst, List.mem_map] at hj
    obtain ⟨x, hx, rfl⟩ := hj
    rw [← hcaff x hx]
    exact hall x hx
  have hgrp : grp data k = pre.map Prod.fst ++ mi :: post.map Prod.fst := by
    rw [← itemsOf_map_fst, hitems, List.map_append, List.map_cons, hmi]
  have hprelt : ∀ x ∈ pre, mv < caffAt data x.1 := by
    intro x hx
    have hxmem : x ∈ itemsOf data k := by
      rw [hitems]
      exact List.mem_append.mpr (Or.inl hx)
    rw [← hcaff x hxmem]
    exact hpre x hx
  have hprefalse : ∀ j ∈ pre.map Prod.fst, isMinIn data (grp data k) j = false := by
    intro j hj
    rw [List.mem_map] at hj
    obtain ⟨x, hx, rfl⟩ := hj
    unfold isMinIn
    rw [decide_eq_false_iff_not]
    intro hforall
    have h1 := hforall mi hmi_grp
    rw [hmi_caff] at h1
    have h2 := hprelt x hx
    omega
  have htrue : isMinIn data (grp data k) mi = true := by
    unfold isMinIn
    rw [decide_eq_true_eq]
    intro j hj
    rw [hmi_caff]
    exact hmin j hj
  have hfm : firstMin data (grp data k) = some mi := by
    unfold firstMin
    set P := isMinIn data (grp data k) with hP
    rw [hgrp]
    rw [find?_append_of_all_neg P _ _ hprefalse, List.find?_cons_of_pos _ htrue]
  refine ⟨hfm, hmi_grp, hmi_caff, hmin, ?_⟩
  intro j hj hjeq
  have hj2 := hj
  rw [hgrp] at hj2
  rcases List.mem_append.mp hj2 with hjpre | hjrest
  · rw [List.mem_map] at hjpre
    obtain ⟨x, hx, rfl⟩ := hjpre
    have := hprelt x hx
    omega
  · rcases List.mem_cons.mp hjrest with rfl | hjpost
    · exact le_rfl
    · have hsorted := grp_sorted data k
      rw [hgrp] at hsorted
      have hp2 := (List.pairwise_append.mp hsorted).2.1
      rw [List.pairwise_cons] at hp2
      exact le_of_lt (hp2.1 j hjpost)

/-! ## The rewrite loop -/

theorem getD_set_ne (l : List MenuRecord) (j i : Nat) (a : MenuRecord) (h : j ≠ i) :
    (l.set j a).getD i default = l.getD i default := by
  rw [List.getD_eq_getElem?_getD, List.getD_eq_getElem?_getD, List.getElem?_set_ne h]

theorem getD_set_self (l : List MenuRecord) (j : Nat) (a : MenuRecord) (h : j < l.length) :
    (l.set j a).getD j default = a := by
  rw [List.getD_eq_getElem?_getD, List.getElem?_set_self h]
  rfl

theorem countP_fst_eq_one (mi : Nat) :
    ∀ (its : List (Nat × MenuRecord)), (its.map Prod.fst).Nodup → mi ∈ its.map Prod.fst →
      its.countP (fun p => p.1 == mi) = 1 := by
  intro its
  induction its with
  | nil => intro _ h; simp at h
  | cons p rest ih =>
    intro hnd hmem
    rw [List.map_cons, List.nodup_cons] at hnd
    rw [List.countP_cons]
    rcases List.mem_cons.mp hmem with heq | hmem2
    · rw [if_pos (by simp [heq])]
      have h0 : rest.countP (fun q => q.1 == mi) = 0 := by
        rw [List.countP_eq_zero]
        intro q hq
        simp only [beq_iff_eq]
        intro hEq
        exact hnd.1 (heq ▸ hEq ▸ List.mem_map_of_mem Prod.fst hq)
      rw [h0]
    · rw [ih hnd.2 hmem2, if_neg (by
        simp only [beq_iff_eq]
        intro hEq
        exact hnd.1 (hEq ▸ hmem2))]

theorem rewriteFold_spec (k : String) (mi : Nat) :
    ∀ (its : List (Nat × MenuRecord)) (d : List MenuRecord) (c : Nat),
      (its.map Prod.fst).Nodup →
      (∀ p ∈ its, p.1 < d.length) →
      (rewriteFold k mi (d, c) its).1.length = d.length ∧
      (∀ i, i ∉ its.map Prod.fst →
        (rewriteFold k mi (d, c) its).1.getD i default = d.getD i default) ∧
      (∀ p ∈ its,
        (rewriteFold k mi (d, c) its).1.getD p.1 default
          = { d.getD p.1 default with name := if p.1 = mi then k ++ tagStr else k }) ∧
      (rewriteFold k mi (d, c) its).2 = c + its.countP (fun p => p.1 == mi) := by
  intro its
  induction its with
  | nil =>
    intro d c _ _
    exact ⟨rfl, fun i _ => rfl, fun p hp => absurd hp (List.not_mem_nil p), by
      simp [rewriteFold]⟩
  | cons p rest ih =>
    intro d c hnd hbound
    rw [List.map_cons, List.nodup_cons] at hnd
    have hplen : p.1 < d.length := hbound p (List.mem_cons_self p rest)
    have hstep : rewriteFold k mi (d, c) (p :: rest)
        = rewriteFold k mi
            (d.set p.1 { d.getD p.1 default with
                name := if p.1 = mi then k ++ tagStr else k },
              c + if p.1 = mi then 1 else 0) rest := by
      unfold rewriteFold
      rw [List.foldl_cons]
      by_cases hpm : p.1 = mi
      · simp only [if_pos hpm]
      · simp only [if_neg hpm, Nat.add_zero]
    have hlen1 : (d.set p.1 { d.getD p.1 default with
        name := if p.1 = mi then k ++ tagStr else k }).length = d.length :=
      List.length_set d p.1 _
    obtain ⟨ihlen, ihun, ihtouch, ihcnt⟩ := ih
      (d.set p.1 { d.getD p.1 default with name := if p.1 = mi then k ++ tagStr else k })
      (c + if p.1 = mi then 1 else 0) hnd.2
      (fun q hq => by rw [hlen1]; exact hbound q (List.mem_cons_of_mem p hq))
    refine ⟨?_, ?_, ?_, ?_⟩
    · rw [hstep, ihlen, hlen1]
    · intro i hi
      rw [List.map_cons, List.mem_cons] at hi
      push_neg at hi
      rw [hstep, ihun i hi.2, getD_set_ne _ _ _ _ (fun h => hi.1 h.symm)]
    · intro q hq
      rcases List.mem_cons.mp hq with rfl | hq2
      · rw [hstep, ihun q.1 hnd.1, getD_set_self _ _ _ hplen]
      · have hqne : p.1 ≠ q.1 := by
          intro hEq
          exact hnd.1 (hEq ▸ List.mem_map_of_mem Prod.fst hq2)
        rw [hstep, ihtouch q hq2, getD_set_ne _ _ _ _ hqne]
    · rw [hstep, ihcnt, List.countP_cons]
      by_cases hpm : p.1 = mi
      · rw [if_pos hpm, if_pos (show (p.1 == mi) = true by simp [hpm])]
        omega
      · rw [if_neg hpm, if_neg (show ¬ (p.1 == mi) = true by simp [hpm])]
        omega

/-! ## The whole pass, pointwise -/

theorem itemsOf_length (data : List MenuRecord) (k : String) :
    (itemsOf data k).length = (grp data k).length := by
  rw [← itemsOf_map_fst, List.length_map]

theorem itemsOf_nodup_fst (data : List MenuRecord) (k : String) :
    ((itemsOf data k).map Prod.fst).Nodup := by
  rw [itemsOf_map_fst]
  exact grp_nodup data k

theorem scanMin_isSome (items : List (Nat × MenuRecord)) (h : items ≠ []) :
    ∃ mi mv, scanMin items = some (mi, mv) := by
  cases items with
  | nil => exact absurd rfl h
  | cons q qs => exact ⟨_, _, rfl⟩

theorem expectedName_of_dup (data : List MenuRecord) (i : Nat)
    (h1 : 1 < (grp data (keyOf data i)).length) (mi : Nat)
    (hfm : firstMin data (grp data (keyOf data i)) = some mi) :
    expectedName data i = if i = mi then keyOf data i ++ tagStr else keyOf data i := by
  unfold expectedName
  rw [if_neg (by omega), hfm]

theorem expectedName_of_single (data : List MenuRecord) (i : Nat)
    (h1 : (grp data (keyOf data i)).length ≤ 1) :
    expectedName data i = (data.getD i default).name := by
  unfold expectedName
  rw [if_pos h1]

theorem clean_fold_spec (data : List MenuRecord) :
    ∀ (gl : List (String × List (Nat × MenuRecord))) (d : List MenuRecord) (c : Nat),
      d.length = data.length →
      (∀ i, i < data.length →
        ∃ s, d.getD i default = { data.getD i default with name := s }) →
      (∀ e ∈ gl, e.2 = itemsOf data e.1) →
      (gl.map Prod.fst).Nodup →
      (gl.foldl (fun dc e => applyGroup dc e.1 e.2) (d, c)).1.length = data.length ∧
      (∀ i, i < data.length → keyOf data i ∈ gl.map Prod.fst →
        1 < (grp data (keyOf data i)).length →
        (gl.foldl (fun dc e => applyGroup dc e.1 e.2) (d, c)).1.getD i default
          = { data.getD i default with name := expectedName data i }) ∧
      (∀ i, i < data.length →
        (keyOf data i ∉ gl.map Prod.fst ∨ ¬ 1 < (grp data (keyOf data i)).length) →
        (gl.foldl (fun dc e => applyGroup dc e.1 e.2) (d, c)).1.getD i default
          = d.getD i default) ∧
      (gl.foldl (fun dc e => applyGroup dc e.1 e.2) (d, c)).2
        = c + gl.countP (fun e => 1 < e.2.length) := by
  intro gl
  induction gl with
  | nil =>
    intro d c hlen _ _ _
    exact ⟨hlen, fun i _ hmem => absurd hmem (List.not_mem_nil _),
      fun i _ _ => rfl, by simp⟩
  | cons e gl2 ih =>
    intro d c hlen hframe hentries hnd
    rw [List.map_cons, List.nodup_cons] at hnd
    have hitems : e.2 = itemsOf data e.1 := hentries e (List.mem_cons_self e gl2)
    rw [List.foldl_cons]
    by_cases hgt : 1 < e.2.length
    · -- a real duplicate group
      have hne : itemsOf data e.1 ≠ [] := by
        intro h0
        rw [hitems, h0] at hgt
        simp at hgt
      obtain ⟨mi, mv, hscan⟩ := scanMin_isSome (itemsOf data e.1) hne
      have happ : applyGroup (d, c) e.1 e.2 = rewriteFold e.1 mi (d, c) (itemsOf data e.1) := by
        unfold applyGroup
        rw [if_pos hgt, hitems, hscan]
      obtain ⟨hfm, hmi_grp, hmi_caff, hmin, htie⟩ :=
        scanMin_itemsOf_firstMin data e.1 mi mv hscan
      have hbounds : ∀ p ∈ itemsOf data e.1, p.1 < d.length := by
        intro p hp
        rw [hlen]
        exact (mem_itemsOf data e.1 p hp).1
      obtain ⟨rflen, rfun, rftouch, rfcnt⟩ :=
        rewriteFold_spec e.1 mi (itemsOf data e.1) d c (itemsOf_nodup_fst data e.1) hbounds
      have hgtg : 1 < (grp data e.1).length := by
        rw [← itemsOf_length]
        rw [hitems] at hgt
        exact hgt
      -- the state handed to the remaining groups
      have hframe1 : ∀ i, i < data.length →
          ∃ s, (rewriteFold e.1 mi (d, c) (itemsOf data e.1)).1.getD i default
            = { data.getD i default with name := s } := by
        intro i hi
        by_cases hmem : i ∈ (itemsOf data e.1).map Prod.fst
        · rw [List.mem_map] at hmem
          obtain ⟨p, hp, hp1⟩ := hmem
          obtain ⟨s, hs⟩ := hframe i hi
          subst hp1
          refine ⟨if p.1 = mi then e.1 ++ tagStr else e.1, ?_⟩
          rw [rftouch p hp, hs]
        · obtain ⟨s, hs⟩ := hframe i hi
          exact ⟨s, by rw [rfun i hmem, hs]⟩
      obtain ⟨ihlen, ihdup, ihun, ihcnt⟩ := ih
        (rewriteFold e.1 mi (d, c) (itemsOf data e.1)).1
        (rewriteFold e.1 mi (d, c) (itemsOf data e.1)).2
        (by rw [rflen, hlen]) hframe1
        (fun e2 he2 => hentries e2 (List.mem_cons_of_mem e he2)) hnd.2
      rw [happ]
      refine ⟨ihlen, ?_, ?_, ?_⟩
      · -- duplicate groups listed in e :: gl2
        intro i hi hkey hgrp2
        rcases List.mem_cons.mp hkey with hkeq | hkmem
        · -- i belongs to this group
          have higrp : i ∈ grp data e.1 := by
            rw [mem_grp_iff]
            exact ⟨hi, hkeq⟩
          have himem : i ∈ (itemsOf data e.1).map Prod.fst := by
            rw [itemsOf_map_fst]
            exact higrp
          rw [List.mem_map] at himem
          obtain ⟨p, hp, hp1⟩ := himem
          have hkeynot : keyOf data i ∉ gl2.map Prod.fst := by
            rw [hkeq]
            exact hnd.1
          rw [ihun i hi (Or.inl hkeynot)]
          obtain ⟨s, hs⟩ := hframe i hi
          subst hp1
          rw [rftouch p hp, hs,
            expectedName_of_dup data p.1 hgrp2 mi (by rw [hkeq]; exact hfm), hkeq]
        · exact ihdup i hi hkmem hgrp2
      · -- untouched records
        intro i hi hcond
        have hkne : keyOf data i ≠ e.1 := by
          rcases hcond with hnot | hsmall
          · intro hEq
            exact hnot (hEq ▸ List.mem_cons_self e.1 (gl2.map Prod.fst))
          · intro hEq
            exact hsmall (hEq ▸ hgtg)
        have hcond2 : keyOf data i ∉ gl2.map Prod.fst ∨
            ¬ 1 < (grp data (keyOf data i)).length := by
          rcases hcond with hnot | hsmall
          · exact Or.inl (fun hmem => hnot (List.mem_cons_of_mem _ hmem))
          · exact Or.inr hsmall
        rw [ihun i hi hcond2]
        apply rfun
        intro hmem
        rw [itemsOf_map_fst] at hmem
        rw [mem_grp_iff] at hmem
        exact hkne hmem.2
      · rw [ihcnt, rfcnt, countP_fst_eq_one mi (itemsOf data e.1)
          (itemsOf_nodup_fst data e.1) (by rw [itemsOf_map_fst]; exact hmi_grp),
          List.countP_cons, if_pos (by simpa using hgt)]
        omega
    · -- group of size at most one: the collection and counter pass through
      have happ : applyGroup (d, c) e.1 e.2 = (d, c) := by
        unfold applyGroup
        rw [if_neg hgt]
      obtain ⟨ihlen, ihdup, ihun, ihcnt⟩ := ih d c hlen hframe
        (fun e2 he2 => hentries e2 (List.mem_cons_of_mem e he2)) hnd.2
      rw [happ]
      have hsmall : ¬ 1 < (grp data e.1).length := by
        rw [← itemsOf_length, ← hitems]
        exact hgt
      refine ⟨ihlen, ?_, ?_, ?_⟩
      · intro i hi hkey hgrp2
        rcases List.mem_cons.mp hkey with hkeq | hkmem
        · exact absurd (hkeq ▸ hgrp2) hsmall
        · exact ihdup i hi hkmem hgrp2
      · intro i hi hcond
        apply ihun i hi
        rcases hcond with hnot | h2
        · exact Or.inl (fun hmem => hnot (List.mem_cons_of_mem _ hmem))
        · exact Or.inr h2
      · rw [ihcnt, List.countP_cons, if_neg (by simpa using hgt)]
        omega

/-- Pointwise characterization of the whole pass: the output has the same
length, record `i` is record `i` of the input with its name replaced by
`expectedName`, and `modified_count` counts the groups with more than one
member. -/
theorem clean_char (data : List MenuRecord) :
    (cleanedData data).length = data.length ∧
    (∀ i, i < data.length →
      (cleanedData data).getD i default
        = { data.getD i default with name := expectedName data i }) ∧
    modifiedCount data = (buildGroups data).countP (fun e => 1 < e.2.length) := by
  have hspec := clean_fold_spec data (buildGroups data) data 0 rfl
    (fun i hi => ⟨(data.getD i default).name, rfl⟩)
    (fun e he => entry_buildGroups data e he)
    (buildGroups_nodup data)
  obtain ⟨hlen, hdup, hun, hcnt⟩ := hspec
  refine ⟨hlen, ?_, ?_⟩
  · intro i hi
    have hkeymem : keyOf data i ∈ (buildGroups data).map Prod.fst := by
      rw [mem_buildGroups_keys]
      refine ⟨(i, data.getD i default), ?_, rfl⟩
      rw [enumFrom_eq_map_range]
      rw [List.mem_map]
      exact ⟨i, by rwa [List.mem_range], by simp⟩
    by_cases hgrp2 : 1 < (grp data (keyOf data i)).length
    · exact hdup i hi hkeymem hgrp2
    · rw [expectedName_of_single data i (by omega)]
      show (List.foldl (fun dc e => applyGroup dc e.1 e.2) (data, 0) (buildGroups data)).1.getD
        i default = _
      rw [hun i hi (Or.inr hgrp2)]
  · show (List.foldl (fun dc e => applyGroup dc e.1 e.2) (data, 0) (buildGroups data)).2 = _
    rw [hcnt]
    omega

/-! ## Derived facts about the cleaned collection -/

theorem getD_mem (data : List MenuRecord) (i : Nat) (h : i < data.length) :
    data.getD i default ∈ data := by
  rw [List.getD_eq_getElem data default h]
  exact List.getElem_mem h

theorem baseOf_update (r : MenuRecord) (nm : String) :
    baseOf { r with name := nm } = normalizeName nm := rfl

theorem find?_congr_mem {p q : Nat → Bool} : ∀ (l : List Nat), (∀ x ∈ l, p x = q x) →
    l.find? p = l.find? q := by
  intro l
  induction l with
  | nil => intro _; rfl
  | cons a as ih =>
    intro h
    have ha := h a (List.mem_cons_self a as)
    by_cases hp : p a = true
    · rw [List.find?_cons_of_pos _ hp, List.find?_cons_of_pos _ (ha ▸ hp)]
    · rw [List.find?_cons_of_neg _ hp, List.find?_cons_of_neg _ (ha ▸ hp),
        ih (fun x hx => h x (List.mem_cons_of_mem a hx))]

/-- Under clean base names, the pass does not change any record's
grouping key. -/
theorem keyOf_cleaned (data : List MenuRecord)
    (hclean : ∀ r ∈ data, hasTag (baseOf r).data = false)
    (i : Nat) (hi : i < data.length) :
    keyOf (cleanedData data) i = keyOf data i := by
  obtain ⟨hlen, hpt, _⟩ := clean_char data
  unfold keyOf
  rw [hpt i hi, baseOf_update]
  have hkc : hasTag (normalizeName (data.getD i default).name).data = false :=
    hclean _ (getD_mem data i hi)
  unfold expectedName
  by_cases h1 : (grp data (keyOf data i)).length ≤ 1
  · rw [if_pos h1]
    rfl
  · rw [if_neg h1]
    cases hfm : firstMin data (grp data (keyOf data i)) with
    | none => rfl
    | some m =>
      have hred : (match some m with
          | some m => if i = m then keyOf data i ++ tagStr else keyOf data i
          | none => (data.getD i default).name)
          = if i = m then keyOf data i ++ tagStr else keyOf data i := rfl
      rw [hred]
      by_cases him : i = m
      · rw [if_pos him]
        exact normalizeName_append_tag (data.getD i default).name hkc
      · rw [if_neg him]
        exact normalizeName_of_clean (data.getD i default).name hkc

theorem grp_cleaned (data : List MenuRecord)
    (hclean : ∀ r ∈ data, hasTag (baseOf r).data = false) (k : String) :
    grp (cleanedData data) k = grp data k := by
  unfold grp
  rw [(clean_char data).1]
  apply List.filter_congr
  intro i hi
  rw [List.mem_range] at hi
  rw [keyOf_cleaned data hclean i hi]

theorem caffAt_cleaned (data : List MenuRecord) (i : Nat) (hi : i < data.length) :
    caffAt (cleanedData data) i = caffAt data i := by
  unfold caffAt
  rw [(clean_char data).2.1 i hi]
  rfl

theorem firstMin_cleaned (data : List MenuRecord) (k : String) :
    firstMin (cleanedData data) (grp data k) = firstMin data (grp data k) := by
  unfold firstMin
  apply find?_congr_mem
  intro j hj
  have hjlen : j < data.length := ((mem_grp_iff data k j).mp hj).1
  unfold isMinIn
  rw [decide_eq_decide]
  constructor
  · intro hall j2 hj2
    have h := hall j2 hj2
    rwa [caffAt_cleaned data j hjlen,
      caffAt_cleaned data j2 ((mem_grp_iff data k j2).mp hj2).1] at h
  · intro hall j2 hj2
    rw [caffAt_cleaned data j hjlen,
      caffAt_cleaned data j2 ((mem_grp_iff data k j2).mp hj2).1]
    exact hall j2 hj2

theorem hasTag_append_tag : ∀ (pre : List Char), hasTag (pre ++ tag) = true := by
  intro pre
  induction pre with
  | nil => decide
  | cons c cs ih => rw [List.cons_append, hasTag_cons, ih, Bool.or_true]

theorem not_suffix_of_clean (l : List Char) (h : hasTag l = false) :
    tag.isSuffixOf l = false := by
  by_contra hcon
  rw [Bool.not_eq_false, List.isSuffixOf_iff_suffix] at hcon
  obtain ⟨pre, rfl⟩ := hcon
  rw [hasTag_append_tag] at h
  exact Bool.noConfusion h

theorem append_tagStr_ne (k : String) : k ++ tagStr ≠ k := by
  intro h
  have h2 := congrArg (fun s => s.data.length) h
  simp only [string_data_append, tagStr_data, List.length_append, tag_length] at h2
  omega

theorem countP_eq_one_of (p : Nat → Bool) (m : Nat) :
    ∀ (g : List Nat), g.Nodup → m ∈ g → (∀ i ∈ g, p i = true ↔ i = m) →
      g.countP p = 1 := by
  intro g
  induction g with
  | nil => intro _ hm; simp at hm
  | cons a rest ih =>
    intro hnd hm hval
    rw [List.nodup_cons] at hnd
    rw [List.countP_cons]
    rcases List.mem_cons.mp hm with rfl | hm2
    · rw [if_pos ((hval m (List.mem_cons_self m rest)).mpr rfl)]
      have h0 : rest.countP p = 0 := by
        rw [List.countP_eq_zero]
        intro i hi hpi
        have := (hval i (List.mem_cons_of_mem m hi)).mp hpi
        exact hnd.1 (this ▸ hi)
      rw [h0]
    · have hpa : p a = false := by
        rw [← Bool.not_eq_true]
        intro hpa
        have := (hval a (List.mem_cons_self a rest)).mp hpa
        exact hnd.1 (this ▸ hm2)
      rw [ih hnd.2 hm2 (fun i hi => hval i (List.mem_cons_of_mem a hi)), if_neg (by simp [hpa])]

/-- C2, counterexample: on two records named `"A (디카 (디카페인)페인)"`
the non-rescanning `str.replace` produces the base name `"A (디카페인)"`,
which still contains the suffix; the first pass renames the records to
`"A (디카페인) (디카페인)"` and `"A (디카페인)"`, and the second pass groups them
under the new base `"A"` and renames them again — the pass is not
idempotent on every input collection. -/
theorem C2_counterexample :
    cleanedData (cleanedData pairNested) ≠ cleanedData pairNested := by
  decide

/-- C2 (amended): the pass is idempotent on every collection whose
records' base names (name with every `' (디카페인)'` occurrence removed and
trimmed) contain no further occurrence of the suffix — which holds for
all ordinary menu data; the unconditional claim fails
(`C2_counterexample`). -/
theorem C2_amended_idempotent (data : List MenuRecord)
    (hclean : ∀ r ∈ data, hasTag (baseOf r).data = false) :
    cleanedData (cleanedData data) = cleanedData data := by
  obtain ⟨hlen, hpt, _⟩ := clean_char data
  obtain ⟨hlen2, hpt2, _⟩ := clean_char (cleanedData data)
  apply List.ext_getElem (by rw [hlen2, hlen])
  intro n h1 h2
  have hn2 : n < (cleanedData data).length := h2
  have hnd : n < data.length := by rwa [hlen] at hn2
  rw [← List.getD_eq_getElem _ default h1, ← List.getD_eq_getElem _ default h2]
  rw [hpt2 n hn2]
  have hexp : expectedName (cleanedData data) n
      = ((cleanedData data).getD n default).name := by
    unfold expectedName
    rw [keyOf_cleaned data hclean n hnd, grp_cleaned data hclean (keyOf data n)]
    by_cases hs : (grp data (keyOf data n)).length ≤ 1
    · rw [if_pos hs]
    · rw [if_neg hs, firstMin_cleaned data (keyOf data n)]
      cases hfmv : firstMin data (grp data (keyOf data n)) with
      | none => rfl
      | some m =>
        have hred : (match some m with
            | some mm => if n = mm then keyOf data n ++ tagStr else keyOf data n
            | none => ((cleanedData data).getD n default).name)
            = if n = m then keyOf data n ++ tagStr else keyOf data n := rfl
        rw [hred, hpt n hnd, expectedName_of_dup data n (by omega) m hfmv]
  rw [hexp]

/-- Witness for `C2_amended_idempotent` on the spec's own scenario data. -/
theorem C2_amended_idempotent_witness :
    cleanedData (cleanedData pairAmericano) = cleanedData pairAmericano :=
  C2_amended_idempotent pairAmericano (by decide)

/-- C10: the pass preserves the sequence (same length, same
positions), changes only the `name` field of any record, and leaves every
record whose base name is shared with no other record entirely
untouched. -/
theorem C10_frame_effect (data : List MenuRecord) (i : Nat) (h : i < data.length) :
    (cleanedData data).length = data.length ∧
    ((cleanedData data).getD i default).brand = (data.getD i default).brand ∧
    ((cleanedData data).getD i default).category = (data.getD i default).category ∧
    ((cleanedData data).getD i default).image_url = (data.getD i default).image_url ∧
    ((cleanedData data).getD i default).description = (data.getD i default).description ∧
    ((cleanedData data).getD i default).price = (data.getD i default).price ∧
    ((cleanedData data).getD i default).nutrition = (data.getD i default).nutrition ∧
    ((grp data (keyOf data i)).length = 1 →
      (cleanedData data).getD i default = data.getD i default) := by
  obtain ⟨hlen, hpt, _⟩ := clean_char data
  have h2 := hpt i h
  refine ⟨hlen, by rw [h2], by rw [h2], by rw [h2], by rw [h2], by rw [h2], by rw [h2], ?_⟩
  intro h1
  rw [h2, expectedName_of_single data i (by omega)]

/-- Witness for `C10_frame_effect` at a concrete collection and index. -/
theorem C10_frame_effect_witness :
    (cleanedData pairAmericano).length = pairAmericano.length ∧
    ((cleanedData pairAmericano).getD 1 default).nutrition
      = (pairAmericano.getD 1 default).nutrition :=
  ⟨(C10_frame_effect pairAmericano 1 (by decide)).1,
    (C10_frame_effect pairAmericano 1 (by decide)).2.2.2.2.2.2.1⟩

/-- C8: in a duplicate group in which every member's caffeine string
contains no digit (so numeric extraction yields 0 for all), the pass
still selects the first member in input order as the representative and
appends the suffix to it, resetting the other members to the base name. -/
theorem C8_all_unparsed_group (data : List MenuRecord) (k : String)
    (h2 : 2 ≤ (grp data k).length)
    (hfail : ∀ i ∈ grp data k,
      (lookupD (data.getD i default).nutrition "카페인" "0").data.all
        (fun c => !c.isDigit) = true) :
    ∃ f rest, grp data k = f :: rest ∧
      firstMin data (grp data k) = some f ∧
      ((cleanedData data).getD f default).name = k ++ tagStr ∧
      (∀ i ∈ grp data k, i ≠ f → ((cleanedData data).getD i default).name = k) := by
  obtain ⟨hlen, hpt, _⟩ := clean_char data
  have hgne : grp data k ≠ [] := by
    intro h0
    rw [h0] at h2
    simp at h2
  obtain ⟨f, rest, hg⟩ : ∃ f rest, grp data k = f :: rest := by
    cases hgl : grp data k with
    | nil => exact absurd hgl hgne
    | cons a b => exact ⟨a, b, rfl⟩
  have hfmem : f ∈ grp data k := by rw [hg]; exact List.mem_cons_self f rest
  have hf0 : caffAt data f = 0 := by
    have hnd0 := hfail f hfmem
    unfold caffAt caffeineOf extractCaffeine
    rw [firstDigitRun_of_no_digit _ hnd0]
    rfl
  have hmin : isMinIn data (grp data k) f = true := by
    unfold isMinIn
    rw [decide_eq_true_eq]
    intro j hj
    rw [hf0]
    exact Nat.zero_le _
  have hfm : firstMin data (grp data k) = some f := by
    have hmin2 := hmin
    rw [hg] at hmin2
    unfold firstMin
    rw [hg, List.find?_cons_of_pos _ hmin2]
  have hname : ∀ i ∈ grp data k, ((cleanedData data).getD i default).name
      = if i = f then k ++ tagStr else k := by
    intro i hig
    obtain ⟨hilen, hikey⟩ := (mem_grp_iff data k i).mp hig
    have hgrp1 : 1 < (grp data (keyOf data i)).length := by rw [hikey]; omega
    have hfm2 : firstMin data (grp data (keyOf data i)) = some f := by
      rw [hikey]; exact hfm
    rw [hpt i hilen]
    show expectedName data i = _
    rw [expectedName_of_dup data i hgrp1 f hfm2, hikey]
  refine ⟨f, rest, hg, hfm, ?_, ?_⟩
  · rw [hname f hfmem, if_pos rfl]
  · intro i hig hif
    rw [hname i hig, if_neg hif]

/-- Witness for `C8_all_unparsed_group`: a duplicate pair whose caffeine
strings are `"-"` and `"없음"` (no digits anywhere). -/
theorem C8_all_unparsed_group_witness :
    ∃ f rest, grp pairDash "라떼" = f :: rest ∧
      firstMin pairDash (grp pairDash "라떼") = some f ∧
      ((cleanedData pairDash).getD f default).name = "라떼" ++ tagStr ∧
      (∀ i ∈ grp pairDash "라떼", i ≠ f →
        ((cleanedData pairDash).getD i default).name = "라떼") :=
  C8_all_unparsed_group pairDash "라떼" (by decide) (by decide)

/-- C3, counterexample: on three records named `"A"` the pass
disambiguates only the minimum-caffeine member; the two losing records
both end up named `"A"`, so names are not unique after normalization. -/
theorem C3_counterexample :
    (cleanedData tripleA).map (fun r => r.name) = ["A (디카페인)", "A", "A"] ∧
    ¬ ((cleanedData tripleA).map (fun r => r.name)).Nodup := by
  constructor
  · decide
  · decide

/-- C3 (amended): after the pass the `name` field is unique across
the collection provided (a) base names are clean (no residual suffix
occurrence, as in C2) and (b) every duplicate-name group has at most two
members — the caffeinated/decaffeinated pairs the routine was written
for.  With a group of three or more the claim fails
(`C3_counterexample`). -/
theorem C3_amended_unique_names (data : List MenuRecord)
    (hclean : ∀ r ∈ data, hasTag (baseOf r).data = false)
    (hsmall : ∀ i, i < data.length → (grp data (keyOf data i)).length ≤ 2)
    (i j : Nat) (hi : i < data.length) (hj : j < data.length) (hij : i ≠ j) :
    ((cleanedData data).getD i default).name ≠ ((cleanedData data).getD j default).name := by
  intro hEq
  obtain ⟨hlen, hpt, _⟩ := clean_char data
  have hkey : keyOf data i = keyOf data j := by
    rw [← keyOf_cleaned data hclean i hi, ← keyOf_cleaned data hclean j hj]
    show normalizeName ((cleanedData data).getD i default).name
        = normalizeName ((cleanedData data).getD j default).name
    rw [hEq]
  have higrp : i ∈ grp data (keyOf data i) := (mem_grp_iff _ _ _).mpr ⟨hi, rfl⟩
  have hjgrp : j ∈ grp data (keyOf data i) := (mem_grp_iff _ _ _).mpr ⟨hj, hkey.symm⟩
  have hne : itemsOf data (keyOf data i) ≠ [] := by
    intro h0
    have hl := itemsOf_length data (keyOf data i)
    rw [h0] at hl
    have hnil : grp data (keyOf data i) = [] :=
      List.length_eq_zero.mp (by simpa using hl.symm)
    rw [hnil] at higrp
    exact List.not_mem_nil i higrp
  obtain ⟨mi, mv, hscan⟩ := scanMin_isSome _ hne
  obtain ⟨hfm, hmi_grp, _, _, _⟩ := scanMin_itemsOf_firstMin data (keyOf data i) mi mv hscan
  have hname : ∀ x ∈ grp data (keyOf data i), ((cleanedData data).getD x default).name
      = if x = mi then keyOf data i ++ tagStr else keyOf data i := by
    intro x hxg
    obtain ⟨hxlen, hxkey⟩ := (mem_grp_iff _ _ _).mp hxg
    have hgrp2x : 2 ≤ (grp data (keyOf data i)).length := by
      have hsub2 : ({i, j} : Finset Nat) ⊆ (grp data (keyOf data i)).toFinset := by
        intro y hy
        rw [List.mem_toFinset]
        rcases Finset.mem_insert.mp hy with rfl | hy2
        · exact higrp
        · rw [Finset.mem_singleton] at hy2
          subst hy2
          exact hjgrp
      have hcard2 : ({i, j} : Finset Nat).card = 2 := by
        rw [Finset.card_insert_of_not_mem (by simp [hij]), Finset.card_singleton]
      have hc := Finset.card_le_card hsub2
      rwa [hcard2, List.toFinset_card_of_nodup (grp_nodup data (keyOf data i))] at hc
    have hgrp1 : 1 < (grp data (keyOf data x)).length := by rw [hxkey]; omega
    have hfm2 : firstMin data (grp data (keyOf data x)) = some mi := by
      rw [hxkey]; exact hfm
    rw [hpt x hxlen]
    show expectedName data x = _
    rw [expectedName_of_dup data x hgrp1 mi hfm2, hxkey]
  by_cases him : i = mi
  · have hjm : j ≠ mi := fun hEq2 => hij (him.trans hEq2.symm)
    rw [hname i higrp, hname j hjgrp, if_pos him, if_neg hjm] at hEq
    exact append_tagStr_ne (keyOf data i) hEq
  · by_cases hjm : j = mi
    · rw [hname i higrp, hname j hjgrp, if_neg him, if_pos hjm] at hEq
      exact append_tagStr_ne (keyOf data i) hEq.symm
    · have hsub3 : ({i, j, mi} : Finset Nat) ⊆ (grp data (keyOf data i)).toFinset := by
        intro y hy
        rw [List.mem_toFinset]
        rcases Finset.mem_insert.mp hy with rfl | hy2
        · exact higrp
        · rcases Finset.mem_insert.mp hy2 with rfl | hy3
          · exact hjgrp
          · rw [Finset.mem_singleton] at hy3
            subst hy3
            exact hmi_grp
      have hcard3 : ({i, j, mi} : Finset Nat).card = 3 := by
        rw [Finset.card_insert_of_not_mem (by simp [hij, him]),
          Finset.card_insert_of_not_mem (by simp [hjm]), Finset.card_singleton]
      have hc := Finset.card_le_card hsub3
      rw [hcard3, List.toFinset_card_of_nodup (grp_nodup data (keyOf data i))] at hc
      have hs := hsmall i hi
      omega

/-- Witness for `C3_amended_unique_names` on the spec's scenario pair. -/
theorem C3_amended_unique_names_witness :
    ((cleanedData pairAmericano).getD 0 default).name
      ≠ ((cleanedData pairAmericano).getD 1 default).name :=
  C3_amended_unique_names pairAmericano (by decide) (by decide) 0 1
    (by decide) (by decide) (by decide)

/-- C1, counterexample: in the duplicate group with (dirty) base name
`"A (디카페인)"` built from `pairNested`, *both* members' final names end
with the suffix `' (디카페인)'`, so "exactly one member of the group carries
the disambiguation suffix" fails on this input. -/
theorem C1_counterexample :
    grp pairNested "A (디카페인)" = [0, 1] ∧
    ((grp pairNested "A (디카페인)").countP
      (fun i => tag.isSuffixOf ((cleanedData pairNested).getD i default).name.data)) = 2 := by
  constructor
  · decide
  · decide

/-- C1 (amended): provided base names are clean (no residual suffix
occurrence), for every duplicate group of two or more members exactly one
member's final name carries the suffix, namely the scan's selected
representative: the first member in input order attaining the strictly
smallest parsed caffeine value (`firstMin` is a `find?`, hence
first-wins on ties, and the last two conjuncts state minimality and the
tie-break). -/
theorem C1_amended_unique_suffix (data : List MenuRecord) (k : String)
    (hclean : ∀ r ∈ data, hasTag (baseOf r).data = false)
    (h2 : 2 ≤ (grp data k).length) :
    ∃ m, firstMin data (grp data k) = some m ∧ m ∈ grp data k ∧
      ((cleanedData data).getD m default).name = k ++ tagStr ∧
      ((grp data k).countP
        (fun i => tag.isSuffixOf ((cleanedData data).getD i default).name.data)) = 1 ∧
      (∀ j ∈ grp data k, caffAt data m ≤ caffAt data j) ∧
      (∀ j ∈ grp data k, caffAt data j = caffAt data m → m ≤ j) := by
  obtain ⟨hlen, hpt, _⟩ := clean_char data
  have hne : itemsOf data k ≠ [] := by
    intro h0
    have hl := itemsOf_length data k
    rw [h0] at hl
    simp at hl
    omega
  obtain ⟨mi, mv, hscan⟩ := scanMin_isSome _ hne
  obtain ⟨hfm, hmi_grp, hmi_caff, hmin, htie⟩ := scanMin_itemsOf_firstMin data k mi mv hscan
  obtain ⟨hmilen, hmikey⟩ := (mem_grp_iff data k mi).mp hmi_grp
  have hkclean : hasTag k.data = false := by
    rw [← hmikey]
    exact hclean _ (getD_mem data mi hmilen)
  have hname : ∀ x ∈ grp data k, ((cleanedData data).getD x default).name
      = if x = mi then k ++ tagStr else k := by
    intro x hxg
    obtain ⟨hxlen, hxkey⟩ := (mem_grp_iff data k x).mp hxg
    have hgrp1 : 1 < (grp data (keyOf data x)).length := by rw [hxkey]; omega
    have hfm2 : firstMin data (grp data (keyOf data x)) = some mi := by
      rw [hxkey]; exact hfm
    rw [hpt x hxlen]
    show expectedName data x = _
    rw [expectedName_of_dup data x hgrp1 mi hfm2, hxkey]
  have hT : tag.isSuffixOf (k ++ tagStr).data = true := by
    rw [string_data_append, tagStr_data, List.isSuffixOf_iff_suffix]
    exact ⟨k.data, rfl⟩
  refine ⟨mi, hfm, hmi_grp, ?_, ?_, ?_, ?_⟩
  · rw [hname mi hmi_grp, if_pos rfl]
  · apply countP_eq_one_of _ mi _ (grp_nodup data k) hmi_grp
    intro x hxg
    rw [hname x hxg]
    by_cases hxm : x = mi
    · rw [if_pos hxm]
      exact ⟨fun _ => hxm, fun _ => hT⟩
    · rw [if_neg hxm, not_suffix_of_clean k.data hkclean]
      simp [hxm]
  · intro j hj
    rw [hmi_caff]
    exact hmin j hj
  · intro j hj hjeq
    apply htie j hj
    rw [← hmi_caff]
    exact hjeq

/-- Witness for `C1_amended_unique_suffix` on the spec's scenario pair
(caffeine `150mg` and `0mg`). -/
theorem C1_amended_unique_suffix_witness :
    ∃ m, firstMin pairAmericano (grp pairAmericano "아메리카노") = some m ∧
      m ∈ grp pairAmericano "아메리카노" ∧
      ((cleanedData pairAmericano).getD m default).name = "아메리카노" ++ tagStr ∧
      ((grp pairAmericano "아메리카노").countP
        (fun i => tag.isSuffixOf
          ((cleanedData pairAmericano).getD i default).name.data)) = 1 ∧
      (∀ j ∈ grp pairAmericano "아메리카노",
        caffAt pairAmericano m ≤ caffAt pairAmericano j) ∧
      (∀ j ∈ grp pairAmericano "아메리카노",
        caffAt pairAmericano j = caffAt pairAmericano m → m ≤ j) :=
  C1_amended_unique_suffix pairAmericano "아메리카노" (by decide) (by decide)

/-- C6, counterexample: on an already-normalized pair the pass
rewrites every record to the value it already has — zero records change —
yet `modified_count` is 1 (one suffix append per duplicate group) and the
file is written back. -/
theorem C6_counterexample :
    cleanedData pairNormalized = pairNormalized ∧
    modifiedCount pairNormalized = 1 ∧
    writesBack pairNormalized = true := by
  refine ⟨by decide, by decide, by decide⟩

/-- C6 (amended): `modified_count` equals the number of distinct base
names shared by at least two records (one count per duplicate group — the
suffix append — whether or not any record's stored data actually
changed), and the collection is persisted back iff at least one such
duplicate group exists. -/
theorem C6_amended_count (data : List MenuRecord) :
    modifiedCount data
      = ((data.map baseOf).toFinset.filter
          (fun k => 2 ≤ (grp data k).length)).card ∧
    (writesBack data = true ↔ ∃ k ∈ data.map baseOf, 2 ≤ (grp data k).length) := by
  have hcount : modifiedCount data
      = ((data.map baseOf).toFinset.filter
          (fun k => 2 ≤ (grp data k).length)).card := by
    have h0 := (clean_char data).2.2
    rw [h0]
    have h1 : (buildGroups data).countP (fun e => decide (1 < e.2.length))
        = (buildGroups data).countP (fun e => decide (2 ≤ (grp data e.1).length)) := by
      rw [List.countP_eq_length_filter, List.countP_eq_length_filter]
      congr 1
      apply List.filter_congr
      intro e he
      rw [entry_buildGroups data e he, itemsOf_length]
      exact decide_eq_decide.mpr (by omega)
    rw [h1]
    have h2 : (buildGroups data).countP (fun e => decide (2 ≤ (grp data e.1).length))
        = ((buildGroups data).map Prod.fst).countP
            (fun k => decide (2 ≤ (grp data k).length)) := by
      rw [List.countP_map]
      rfl
    rw [h2]
    have hnd := buildGroups_nodup data
    have hmemiff : ∀ k, k ∈ ((buildGroups data).map Prod.fst).toFinset
        ↔ k ∈ (data.map baseOf).toFinset := by
      intro k
      rw [List.mem_toFinset, List.mem_toFinset, mem_buildGroups_keys, List.mem_map]
      constructor
      · rintro ⟨p, hp, hk⟩
        rw [enumFrom_eq_map_range, List.mem_map] at hp
        obtain ⟨j, hj, rfl⟩ := hp
        rw [List.mem_range] at hj
        exact ⟨data.getD j default, getD_mem data j hj, hk⟩
      · rintro ⟨r, hr, hk⟩
        rw [List.mem_iff_getElem] at hr
        obtain ⟨n, hn, hrn⟩ := hr
        refine ⟨(n + 0, data.getD n default), ?_, ?_⟩
        · rw [enumFrom_eq_map_range, List.mem_map]
          exact ⟨n, by rwa [List.mem_range], rfl⟩
        · show baseOf (data.getD n default) = k
          rw [List.getD_eq_getElem data default hn, hrn]
          exact hk
    rw [List.countP_eq_length_filter,
      ← List.toFinset_card_of_nodup (hnd.filter _), List.toFinset_filter]
    congr 1
    apply Finset.ext
    intro k
    rw [Finset.mem_filter, Finset.mem_filter, hmemiff k]
    constructor
    · rintro ⟨hmem, hpred⟩
      exact ⟨hmem, of_decide_eq_true hpred⟩
    · rintro ⟨hmem, hpred⟩
      exact ⟨hmem, decide_eq_true hpred⟩
  refine ⟨hcount, ?_⟩
  constructor
  · intro hw
    have hpos : 0 < modifiedCount data := of_decide_eq_true hw
    rw [hcount] at hpos
    obtain ⟨k, hk⟩ := Finset.card_pos.mp hpos
    rw [Finset.mem_filter] at hk
    exact ⟨k, List.mem_toFinset.mp hk.1, hk.2⟩
  · rintro ⟨k, hkmem, hk2⟩
    have hpos : 0 < ((data.map baseOf).toFinset.filter
        (fun k => 2 ≤ (grp data k).length)).card :=
      Finset.card_pos.mpr ⟨k, Finset.mem_filter.mpr
        ⟨List.mem_toFinset.mpr hkmem, hk2⟩⟩
    rw [← hcount] at hpos
    exact decide_eq_true hpos

/-! ## RAG document construction -/

theorem mem_data_append_left (c : Char) (a b : String) (h : c ∈ a.data) :
    c ∈ (a ++ b).data := by
  rw [string_data_append]
  exact List.mem_append.mpr (Or.inl h)

/-- The assembled text body always contains the literal label `브랜드:`,
so after stripping it is never the empty string. -/
theorem finalContent_ne_empty (r : MenuRecord) : finalContent r ≠ "" := by
  intro h
  have hdata : pyStrip ((contentOf r ++ "\n" ++ nutritionStr r).data) = [] :=
    congrArg String.data h
  have hmem : '브' ∈ ((contentOf r ++ "\n") ++ nutritionStr r).data := by
    apply mem_data_append_left
    apply mem_data_append_left
    unfold contentOf
    apply mem_data_append_left
    apply mem_data_append_left
    apply mem_data_append_left
    apply mem_data_append_left
    apply mem_data_append_left
    apply mem_data_append_left
    apply mem_data_append_left
    apply mem_data_append_left
    decide
  exact pyStrip_ne_nil _ '브' hmem (by decide) hdata

theorem keepsRecord_eq (r : MenuRecord) : keepsRecord r = !(r.name == "") := by
  unfold keepsRecord
  have h : (finalContent r == "") = false := by
    rw [beq_eq_false_iff_ne]
    exact finalContent_ne_empty r
  rw [h]
  rfl

theorem filterMap_if (q : MenuRecord → Bool) (f : MenuRecord → RagDoc) :
    ∀ (items : List MenuRecord),
      items.filterMap (fun r => if q r then some (f r) else none)
        = (items.filter q).map f := by
  intro items
  induction items with
  | nil => rfl
  | cons r rest ih =>
    by_cases h : q r = true <;>
      simp [List.filterMap_cons, List.filter_cons, h, ih]

/-- C7, counterexample: a record with an empty name but a nonempty
description is dropped by the builder even though its assembled text body
is nonempty — the drop condition is `not final_content or not name`, and
the body is never empty, so the record is dropped exactly when its name
is empty, not "when its name is empty and its body is empty". -/
theorem C7_counterexample :
    buildDocuments [emptyNameItem] = [] ∧ finalContent emptyNameItem ≠ "" := by
  constructor
  · decide
  · decide

/-- C7 (amended): the assembled body is never empty (it always
carries the literal field labels), so a record is dropped exactly when
its `name` is empty; in particular the empty-name/empty-body record is
excluded, and every record with a nonempty name yields exactly one
document. -/
theorem C7_amended_drop_rule :
    (∀ r : MenuRecord, finalContent r ≠ "") ∧
    (∀ items : List MenuRecord,
      buildDocuments items
        = (items.filter (fun r => !(r.name == ""))).map
            (fun r => ⟨finalContent r, r.brand, r.name, r.category⟩)) := by
  refine ⟨finalContent_ne_empty, ?_⟩
  intro items
  unfold buildDocuments
  have hk : (fun r : MenuRecord =>
      if keepsRecord r then
        some (⟨finalContent r, r.brand, r.name, r.category⟩ : RagDoc)
      else none)
      = fun r => if !(r.name == "") then
          some (⟨finalContent r, r.brand, r.name, r.category⟩ : RagDoc) else none := by
    funext r
    rw [keepsRecord_eq]
  rw [hk, filterMap_if]

/-! ## Data loading -/

/-- C9, counterexample: a malformed Ediya menu file makes
`json.load` raise `JSONDecodeError`, which `load_data` does not catch —
the exception escapes the loading operation instead of being reported
and replaced by an empty collection. -/
theorem C9_counterexample :
    load_data (BrandFile.ok []) BrandFile.malformed (BrandFile.ok [])
      = Except.error "json.decoder.JSONDecodeError" := rfl

/-- C9 (amended): missing files are recoverable for all four loads
(empty collection plus a logged message); malformed JSON is recoverable
only for the recommended-questions load, which never raises; for the
three brand menu files a JSON decode error propagates out of
`load_data`. -/
theorem C9_amended_loading :
    (loadBrandFile BrandFile.missing = Except.ok ([], true)) ∧
    (∀ rs, loadBrandFile (BrandFile.ok rs) = Except.ok (rs, false)) ∧
    (∃ msg, loadBrandFile BrandFile.malformed = Except.error msg) ∧
    (∀ qf, ∃ r, load_recommended_questions qf = Except.ok r) ∧
    (load_recommended_questions QuestionsFile.missing = Except.ok ([], true, false)) ∧
    (load_recommended_questions QuestionsFile.malformed = Except.ok ([], false, true)) := by
  refine ⟨rfl, fun rs => rfl, ⟨_, rfl⟩, ?_, rfl, rfl⟩
  intro qf
  cases qf <;> exact ⟨_, rfl⟩

end Coffee
